import Mathlib

/-!
Verification of the Option Resolution and Learner-Stack Assembly Engine of
vowpal_wabbit's argument-parsing subsystem.  The repository source exposes
only the entry-point declaration (src/vowpalwabbit/parse_args.h); the engine
behind it is specified in spec.md, so the definitions below embed that
specification faithfully and the theorems settle the frozen claims against
this embedding.
-/

/-- Decidable equality of computation results, used to evaluate the engine
at concrete inputs. -/
instance {ε α : Type} [DecidableEq ε] [DecidableEq α] : DecidableEq (Except ε α) :=
  fun a b =>
    match a, b with
    | .ok x, .ok y =>
        if h : x = y then .isTrue (by rw [h])
        else .isFalse (by intro hc; cases hc; exact h rfl)
    | .error x, .error y =>
        if h : x = y then .isTrue (by rw [h])
        else .isFalse (by intro hc; cases hc; exact h rfl)
    | .ok _, .error _ => .isFalse (by intro hc; cases hc)
    | .error _, .ok _ => .isFalse (by intro hc; cases hc)

namespace VW

/-- Modelled from the spec: the value types an option may carry
(bool / int / float / string / repeated-string); the implementation of this
registry type system is missing from src, only parse_args.h is present. -/
inductive OptionTy where
  | tBool
  | tInt
  | tFloat
  | tString
  | tStrings
  deriving DecidableEq, Repr

/-- Modelled from the spec: a typed option value.  Floating-point option
values are represented by exact rationals, since only equality of stored
values matters to resolution. -/
inductive OptionVal where
  | vBool (b : Bool)
  | vInt (i : Int)
  | vFloat (q : Rat)
  | vString (s : String)
  | vStrings (l : List String)
  deriving DecidableEq, Repr

/-- The value type of a stored option value. -/
def OptionVal.ty : OptionVal → OptionTy
  | .vBool _ => .tBool
  | .vInt _ => .tInt
  | .vFloat _ => .tFloat
  | .vString _ => .tString
  | .vStrings _ => .tStrings

/-- Modelled from the spec: provenance of a resolved value
(DEFAULT / LOADED_MODEL / COMMAND_LINE); determines precedence. -/
inductive Provenance where
  | pDefault
  | pLoadedModel
  | pCommandLine
  deriving DecidableEq, Repr

/-- Modelled from the spec: an OptionSpec declares a single option's name,
value type, default value, owning stage and mutability-after-load flag. -/
structure OptionSpec where
  name : String
  ty : OptionTy
  defVal : OptionVal
  owner : String
  mutableAfterLoad : Bool
  deriving DecidableEq, Repr

/-- Modelled from the spec: an OptionValue pairs an option name with its
typed value and the provenance the value came from. -/
structure OptionValue where
  name : String
  value : OptionVal
  prov : Provenance
  deriving DecidableEq, Repr

/-- A parsed option bag: name to raw typed value, as produced by the
external tokenizer. -/
abbrev OptMap := List (String × OptionVal)

/-- Modelled from the spec: a ResolvedConfiguration maps option names to
resolved OptionValues (represented as a list in registry declaration
order). -/
abbrev ResolvedConfiguration := List OptionValue

/-- Modelled from the spec: the error taxonomy of the engine. -/
inductive Err where
  | UnknownOption (name : String)
  | OptionTypeError (name : String) (expected got : OptionTy)
  | DuplicateOption (name : String)
  | ConfigurationConflict (name : String) (loadedVal requestedVal : OptionVal)
  | CyclicStageDependency (stages : List String)
  | MissingDependency (stage prereq : String)
  | InternalConsistencyError (msg : String)
  deriving DecidableEq, Repr

/-- Look an option spec up by name in the registry list. -/
def lookupSpec (reg : List OptionSpec) (n : String) : Option OptionSpec :=
  reg.find? (fun s => s.name == n)

/-- Modelled from the spec: register one OptionSpec into the registry;
fails with DuplicateOption when a name is registered twice with conflicting
type, and is idempotent for a name already registered with the same type. -/
def register (reg : List OptionSpec) (s : OptionSpec) : Except Err (List OptionSpec) :=
  match lookupSpec reg s.name with
  | some t => if t.ty = s.ty then .ok reg else .error (.DuplicateOption s.name)
  | none => .ok (reg ++ [s])

/-- Modelled from the spec: build the static registry by registering each
spec in declaration order. -/
def registerAll : List OptionSpec → List OptionSpec → Except Err (List OptionSpec)
  | reg, [] => .ok reg
  | reg, s :: rest =>
      match register reg s with
      | .error e => .error e
      | .ok reg2 => registerAll reg2 rest

/-- Check a source value (when present) against the spec's declared type. -/
def checkTy (spec : OptionSpec) : Option OptionVal → Except Err Unit
  | none => .ok ()
  | some v =>
      if v.ty = spec.ty then .ok ()
      else .error (.OptionTypeError spec.name spec.ty v.ty)

/-- Modelled from the spec: resolve one option given the values the three
sources supply for it (compiled-in default, loaded model, command line).
Command line wins when given; a loaded value stands otherwise; a loaded
value together with a different command-line value for an option not marked
mutable-after-load is a ConfigurationConflict. -/
def resolveName (spec : OptionSpec) (dv lv cv : Option OptionVal) :
    Except Err (Option OptionValue) :=
  match checkTy spec dv with
  | .error e => .error e
  | .ok _ =>
    match checkTy spec lv with
    | .error e => .error e
    | .ok _ =>
      match checkTy spec cv with
      | .error e => .error e
      | .ok _ =>
        match lv, cv with
        | some w, some v =>
            if spec.mutableAfterLoad then .ok (some ⟨spec.name, v, .pCommandLine⟩)
            else if w = v then .ok (some ⟨spec.name, v, .pCommandLine⟩)
            else .error (.ConfigurationConflict spec.name w v)
        | some w, none => .ok (some ⟨spec.name, w, .pLoadedModel⟩)
        | none, some v => .ok (some ⟨spec.name, v, .pCommandLine⟩)
        | none, none =>
            match dv with
            | some d => .ok (some ⟨spec.name, d, .pDefault⟩)
            | none => .ok none

/-- Resolve every registered option in declaration order, keeping the names
for which at least one source supplies a value. -/
def resolveList (defaults loadedM cmd : OptMap) :
    List OptionSpec → Except Err ResolvedConfiguration
  | [] => .ok []
  | spec :: rest =>
      match resolveName spec (defaults.lookup spec.name)
          (loadedM.lookup spec.name) (cmd.lookup spec.name) with
      | .error e => .error e
      | .ok none => resolveList defaults loadedM cmd rest
      | .ok (some ov) =>
          match resolveList defaults loadedM cmd rest with
          | .error e => .error e
          | .ok tail => .ok (ov :: tail)

/-- First name in a source that has no registered OptionSpec. -/
def firstUnknown (reg : List OptionSpec) (src : OptMap) : Option String :=
  match src.find? (fun p => (lookupSpec reg p.1).isNone) with
  | some p => some p.1
  | none => none

/-- Modelled from the spec: the Option Resolver.  Merges compiled-in
defaults, options from a loaded model (empty map when no model is loaded)
and command-line options into one canonical ResolvedConfiguration,
rejecting unknown names, type mismatches and non-mutable conflicts.  The
implementation behind parse_args is missing from src. -/
def resolve (reg : List OptionSpec) (defaults loadedM cmd : OptMap) :
    Except Err ResolvedConfiguration :=
  match firstUnknown reg defaults with
  | some n => .error (.UnknownOption n)
  | none =>
    match firstUnknown reg loadedM with
    | some n => .error (.UnknownOption n)
    | none =>
      match firstUnknown reg cmd with
      | some n => .error (.UnknownOption n)
      | none => resolveList defaults loadedM cmd reg

/-- Value stored in a resolved configuration for a name, if any. -/
def cfgLookup (cfg : ResolvedConfiguration) (n : String) : Option OptionVal :=
  match cfg.find? (fun ov => ov.name == n) with
  | some ov => some ov.value
  | none => none

/-- Three-source precedence on looked-up values: command line first, then
loaded model, then default. -/
def pick3 (cv lv dv : Option OptionVal) : Option OptionVal :=
  match cv with
  | some v => some v
  | none =>
    match lv with
    | some w => some w
    | none => dv

/-- Modelled from the spec: a PersistedConfiguration is the serialized
snapshot of a ResolvedConfiguration embedded into the model. -/
abbrev PersistedConfiguration := List (String × OptionVal)

/-- Modelled from the spec: the Configuration Serializer projects the
canonical option set into a persistable name-to-value map. -/
def serialize (cfg : ResolvedConfiguration) : PersistedConfiguration :=
  cfg.map (fun ov => (ov.name, ov.value))

/-- Modelled from the spec: deserialization reads the persisted snapshot
back as a ResolvedConfiguration-like option map that seeds resolution as
the loaded-model source. -/
def deserialize (p : PersistedConfiguration) : OptMap := p

/-- Modelled from the spec: a StageDescriptor declares a stage identifier,
its ordered prerequisite stage identifiers, the option names it reads, and
the controlling option whose boolean value activates it. -/
structure StageDescriptor where
  id : String
  prereqs : List String
  reads : List String
  flag : String
  deriving DecidableEq, Repr

/-- Identifiers of a list of stages, in order. -/
def idsOf (l : List StageDescriptor) : List String :=
  l.map (fun s => s.id)

/-- Look a stage descriptor up by identifier. -/
def stageById (stages : List StageDescriptor) (i : String) : Option StageDescriptor :=
  stages.find? (fun s => s.id == i)

/-- A stage is activated when its controlling option resolved to true. -/
def stageEnabled (cfg : ResolvedConfiguration) (s : StageDescriptor) : Bool :=
  match cfgLookup cfg s.flag with
  | some (.vBool true) => true
  | _ => false

/-- All (stage, prerequisite) pairs declared by the stages of acc. -/
def prereqPairs (stages : List StageDescriptor) (acc : List String) :
    List (String × String) :=
  (acc.filterMap (stageById stages)).flatMap
    (fun s => s.prereqs.map (fun p => (s.id, p)))

/-- One closure step: add every prerequisite of an already-enabled stage,
failing with MissingDependency when a prerequisite has no descriptor. -/
def prereqClosureStep (stages : List StageDescriptor) (acc : List String) :
    Except Err (List String) :=
  match (prereqPairs stages acc).find? (fun q => (stageById stages q.2).isNone) with
  | some q => .error (.MissingDependency q.1 q.2)
  | none =>
      .ok (acc ++
        (((prereqPairs stages acc).map Prod.snd).filter
          (fun p => !acc.contains p)).dedup)

/-- Iterate the closure step to a fixpoint, with enough fuel for every
stage to be added once. -/
def prereqClosure (stages : List StageDescriptor) :
    Nat → List String → Except Err (List String)
  | 0, acc => .ok acc
  | n + 1, acc =>
      match prereqClosureStep stages acc with
      | .error e => .error e
      | .ok acc2 =>
          if acc2.length = acc.length then .ok acc
          else prereqClosure stages n acc2

/-- Modelled from the spec: the set of enabled stages, in declaration
order: stages whose controlling option indicates activation, closed under
prerequisites (a prerequisite of an enabled stage is implicitly enabled). -/
def enabledOf (stages : List StageDescriptor) (cfg : ResolvedConfiguration) :
    Except Err (List StageDescriptor) :=
  match prereqClosure stages stages.length (idsOf (stages.filter (stageEnabled cfg))) with
  | .error e => .error e
  | .ok ids => .ok (stages.filter (fun s => ids.contains s.id))

/-- A stage is ready when each prerequisite that belongs to the enabled set
has already been emitted. -/
def isReady (ids emitted : List String) (s : StageDescriptor) : Bool :=
  s.prereqs.all (fun p => !ids.contains p || emitted.contains p)

/-- First ready stage of the remaining list, together with the rest. -/
def pickReady (ids emitted : List String) :
    List StageDescriptor → Option (StageDescriptor × List StageDescriptor)
  | [] => none
  | s :: rest =>
      if isReady ids emitted s then some (s, rest)
      else
        match pickReady ids emitted rest with
        | some (t, rest2) => some (t, s :: rest2)
        | none => none

/-- Prerequisite successors of a stage, restricted to the given stage
list. -/
def succsOf (stages : List StageDescriptor) (i : String) : List String :=
  match stageById stages i with
  | some s => s.prereqs.filter (fun p => (idsOf stages).contains p)
  | none => []

/-- One breadth-first expansion of a reachable-identifier set along
prerequisite edges. -/
def expand (stages : List StageDescriptor) (acc : List String) : List String :=
  acc ++ ((acc.flatMap (succsOf stages)).filter (fun p => !acc.contains p))

/-- Iterated breadth-first expansion. -/
def expandN (stages : List StageDescriptor) : Nat → List String → List String
  | 0, acc => acc
  | n + 1, acc => expandN stages n (expand stages acc)

/-- A stage identifier lies on a prerequisite cycle of the given stage list
when it can reach itself along prerequisite edges. -/
def reachesSelf (stages : List StageDescriptor) (i : String) : Bool :=
  (expandN stages stages.length (succsOf stages i)).contains i

/-- The stuck stages that participate in a dependency cycle. -/
def onCycle (rem : List StageDescriptor) : List String :=
  (idsOf rem).filter (fun i => reachesSelf rem i)

/-- Modelled from the spec: greedy topological emission.  At each step the
earliest-declared ready stage is emitted; when no stage is ready the
remaining stages are stuck on a dependency cycle and selection fails with
CyclicStageDependency naming the cycle participants. -/
def kahnLoop (ids : List String) :
    Nat → List String → List StageDescriptor → List StageDescriptor →
      Except Err (List StageDescriptor)
  | 0, _, acc, rem =>
      if rem.isEmpty then .ok acc else .error (.CyclicStageDependency (onCycle rem))
  | n + 1, emitted, acc, rem =>
      match pickReady ids emitted rem with
      | none =>
          if rem.isEmpty then .ok acc
          else .error (.CyclicStageDependency (onCycle rem))
      | some (t, rest) => kahnLoop ids n (t.id :: emitted) (acc ++ [t]) rest

/-- Modelled from the spec: the Stage Factory.  Determines the enabled
stages from the resolved configuration and orders them topologically by
the prerequisite relation, ties broken greedily by declaration order; the
implementation behind parse_args is missing from src. -/
def selectStages (stages : List StageDescriptor) (cfg : ResolvedConfiguration) :
    Except Err (List StageDescriptor) :=
  match enabledOf stages cfg with
  | .error e => .error e
  | .ok es => kahnLoop (idsOf es) es.length [] [] es

/-- Modelled from the spec: an instantiated stage holds only the option
values the stage declared ownership of. -/
structure StageInstance where
  id : String
  opts : List (String × OptionVal)
  deriving DecidableEq, Repr

/-- Modelled from the spec: a Pipeline is the ordered sequence of
instantiated stages, owned exclusively by the run that created it. -/
structure Pipeline where
  stages : List StageInstance
  deriving DecidableEq, Repr

/-- Instantiate one stage from the option values it reads. -/
def instantiateStage (cfg : ResolvedConfiguration) (s : StageDescriptor) :
    StageInstance :=
  ⟨s.id, (cfg.filter (fun ov => s.reads.contains ov.name)).map
    (fun ov => (ov.name, ov.value))⟩

/-- Modelled from the spec: the Pipeline Assembler wires the ordered stages
into one processing chain, each stage seeing only its own options. -/
def assemble (order : List StageDescriptor) (cfg : ResolvedConfiguration) :
    Except Err Pipeline :=
  .ok ⟨order.map (instantiateStage cfg)⟩

/-- Modelled from the spec: the engine behind parse_args.  Resolution,
stage selection and assembly run in sequence; the first error aborts the
run and no pipeline is produced.  The implementation is missing from src,
which only declares the entry point. -/
def parseArgsCore (reg : List OptionSpec) (stages : List StageDescriptor)
    (defaults loadedM cmd : OptMap) : Except Err Pipeline :=
  match resolve reg defaults loadedM cmd with
  | .error e => .error e
  | .ok cfg =>
      match selectStages stages cfg with
      | .error e => .error e
      | .ok order => assemble order cfg

/-- Whether an error kind is user-input shaped (recoverable to the caller)
rather than an internal invariant violation. -/
def userFacing : Err → Bool
  | .InternalConsistencyError _ => false
  | _ => true

/-! ### The visible entry-point declaration (src/vowpalwabbit/parse_args.h) -/

/-- A C type as it appears in the header. -/
inductive CTy where
  | cInt
  | cChar
  | cPtr (t : CTy)
  | cNamed (n : String)
  deriving DecidableEq, Repr

/-- A C function declaration: return type, name, parameter types. -/
structure CFunDecl where
  ret : CTy
  name : String
  params : List CTy
  deriving DecidableEq, Repr

/-- The function declarations of src/vowpalwabbit/parse_args.h, transcribed
from the source: the single declaration
vw* parse_args(int argc, char *argv[]). -/
def parseArgsHeaderDecls : List CFunDecl :=
  [⟨.cPtr (.cNamed "vw"), "parse_args", [.cInt, .cPtr (.cPtr .cChar)]⟩]

/-! ### Well-formedness checks on resolution inputs -/

/-- Every name of the source has a registered spec. -/
def namesKnownB (reg : List OptionSpec) (src : OptMap) : Bool :=
  src.all (fun p => (lookupSpec reg p.1).isSome)

/-- Every looked-up source value has the type its spec declares. -/
def typesFitB (reg : List OptionSpec) (src : OptMap) : Bool :=
  src.all (fun p =>
    match lookupSpec reg p.1, src.lookup p.1 with
    | some spec, some v => v.ty == spec.ty
    | _, _ => true)

/-- No option is bound by the loaded model and differently by the command
line unless its spec marks it mutable-after-load. -/
def noConflictsB (reg : List OptionSpec) (l c : OptMap) : Bool :=
  l.all (fun p =>
    match lookupSpec reg p.1, l.lookup p.1, c.lookup p.1 with
    | some spec, some w, some v => spec.mutableAfterLoad || (w == v)
    | _, _, _ => true)

/-- A prerequisite chain: starting from x, each list element is a
prerequisite successor of the previous one within the given stage list. -/
def chainB (stages : List StageDescriptor) : String → List String → Bool
  | _, [] => true
  | x, y :: t => (succsOf stages x).contains y && chainB stages y t

/-- A nonempty identifier list is a prerequisite cycle when its chain
closes back on its head. -/
def isCycle (stages : List StageDescriptor) : List String → Bool
  | [] => false
  | x :: rest => chainB stages x (rest ++ [x])

/-- Stage x transitively depends on stage y through prerequisite edges. -/
def depB (stages : List StageDescriptor) (x y : String) : Bool :=
  (expandN stages stages.length (succsOf stages x)).contains y

/-- Checks that a stage sequence is topologically sorted: every stage is
ready once the stages before it (and the initially done set) are
emitted. -/
def topoCheck (ids : List String) : List String → List StageDescriptor → Bool
  | _, [] => true
  | done, s :: rest => isReady ids done s && topoCheck ids (s.id :: done) rest

/-! ### Concrete fixtures used to instantiate the claim theorems -/

/-- A small concrete registry: an immutable bool, two ints (one
mutable-after-load), and two stage-controlling flags. -/
def regW : List OptionSpec :=
  [⟨"quiet", .tBool, .vBool false, "core", false⟩,
   ⟨"bits", .tInt, .vInt 18, "core", false⟩,
   ⟨"passes", .tInt, .vInt 1, "core", true⟩,
   ⟨"cache_on", .tBool, .vBool false, "cache", false⟩,
   ⟨"boost_on", .tBool, .vBool false, "boost", false⟩]

/-- Concrete compiled-in defaults. -/
def dW : OptMap := [("quiet", .vBool false), ("bits", .vInt 18)]

/-- Concrete loaded-model options: bits (immutable) and passes (mutable). -/
def lW : OptMap := [("bits", .vInt 20), ("passes", .vInt 5)]

/-- Concrete command-line options: passes overrides a mutable loaded value. -/
def cW : OptMap := [("passes", .vInt 9), ("cache_on", .vBool true)]

/-- A loaded-model source that conflicts with cWconf on the immutable
option bits. -/
def lWconf : OptMap := [("bits", .vInt 20)]

/-- A command-line source requesting a different bits value. -/
def cWconf : OptMap := [("bits", .vInt 19)]

/-- A command-line source naming an unregistered option. -/
def cWunk : OptMap := [("nonexistent_flag", .vBool true)]

/-- Concrete stage registry: a cache stage and a boost stage that
requires it. -/
def stagesW : List StageDescriptor :=
  [⟨"cache", [], ["cache_on"], "cache_on"⟩,
   ⟨"boost", ["cache"], ["boost_on"], "boost_on"⟩]

/-- The configuration obtained from defaults dW and command line cW with
no loaded model. -/
def cfgRT : ResolvedConfiguration :=
  [⟨"quiet", .vBool false, .pDefault⟩,
   ⟨"bits", .vInt 18, .pDefault⟩,
   ⟨"passes", .vInt 9, .pCommandLine⟩,
   ⟨"cache_on", .vBool true, .pCommandLine⟩]

/-- The configuration obtained by re-resolving the serialized cfgRT with
an empty command line: same names and values, loaded-model provenance. -/
def cfgRT2 : ResolvedConfiguration :=
  [⟨"quiet", .vBool false, .pLoadedModel⟩,
   ⟨"bits", .vInt 18, .pLoadedModel⟩,
   ⟨"passes", .vInt 9, .pLoadedModel⟩,
   ⟨"cache_on", .vBool true, .pLoadedModel⟩]

/-- Fixture stage depending on v. -/
def stageW : StageDescriptor := ⟨"w", ["v"], [], "fw"⟩

/-- Fixture stage with no prerequisites. -/
def stageU : StageDescriptor := ⟨"u", [], [], "fu"⟩

/-- Fixture stage with no prerequisites, declared last. -/
def stageV : StageDescriptor := ⟨"v", [], [], "fv"⟩

/-- Declaration order w, u, v with w depending on v. -/
def stagesOrd : List StageDescriptor := [stageW, stageU, stageV]

/-- Configuration enabling all three ordering-fixture stages. -/
def cfgOrd : ResolvedConfiguration :=
  [⟨"fw", .vBool true, .pDefault⟩,
   ⟨"fu", .vBool true, .pDefault⟩,
   ⟨"fv", .vBool true, .pDefault⟩]

/-- Two stages that each declare the other as prerequisite. -/
def stagesCyc : List StageDescriptor :=
  [⟨"a", ["b"], [], "fa"⟩, ⟨"b", ["a"], [], "fb"⟩]

/-- Configuration enabling both cyclic stages. -/
def cfgCyc : ResolvedConfiguration :=
  [⟨"fa", .vBool true, .pDefault⟩, ⟨"fb", .vBool true, .pDefault⟩]

/-- The configuration the fixture inputs resolve to. -/
def cfgW : ResolvedConfiguration :=
  [⟨"quiet", .vBool false, .pDefault⟩,
   ⟨"bits", .vInt 20, .pLoadedModel⟩,
   ⟨"passes", .vInt 9, .pCommandLine⟩,
   ⟨"cache_on", .vBool true, .pCommandLine⟩]

/-! ### Lemmas about registry lookup and unknown-name detection -/

theorem lookupSpec_mem {reg : List OptionSpec} {n : String} {s : OptionSpec}
    (h : lookupSpec reg n = some s) : s ∈ reg ∧ s.name = n := by
  unfold lookupSpec at h
  refine ⟨List.mem_of_find?_eq_some h, ?_⟩
  have := List.find?_some h
  simpa using this

theorem lookupSpec_self {reg : List OptionSpec} {s : OptionSpec}
    (hnd : (reg.map (fun t => t.name)).Nodup) (hm : s ∈ reg) :
    lookupSpec reg s.name = some s := by
  induction reg with
  | nil => cases hm
  | cons a rest ih =>
      simp only [List.map_cons, List.nodup_cons] at hnd
      rcases List.mem_cons.mp hm with h | h
      · subst h
        unfold lookupSpec
        simp [List.find?]
      · have hne : (a.name == s.name) = false := by
          simp only [beq_eq_false_iff_ne, ne_eq]
          intro hc
          exact hnd.1 (hc ▸ List.mem_map_of_mem (fun t => t.name) h)
        unfold lookupSpec
        simp only [List.find?, hne]
        simpa [lookupSpec] using ih hnd.2 h

theorem lookupSpec_isSome_iff {reg : List OptionSpec} {n : String} :
    (lookupSpec reg n).isSome = true ↔ ∃ s ∈ reg, s.name = n := by
  constructor
  · intro h
    rcases Option.isSome_iff_exists.mp h with ⟨s, hs⟩
    rcases lookupSpec_mem hs with ⟨h1, h2⟩
    exact ⟨s, h1, h2⟩
  · intro ⟨s, hm, hn⟩
    unfold lookupSpec
    exact List.find?_isSome.mpr ⟨s, hm, by simp [hn]⟩

theorem firstUnknown_eq_none_iff {reg : List OptionSpec} {src : OptMap} :
    firstUnknown reg src = none ↔ ∀ p ∈ src, (lookupSpec reg p.1).isSome = true := by
  unfold firstUnknown
  constructor
  · intro h p hp
    cases hf : src.find? (fun p => (lookupSpec reg p.1).isNone) with
    | some q => rw [hf] at h; cases h
    | none =>
        have hnp := List.find?_eq_none.mp hf p hp
        cases h2 : lookupSpec reg p.1 with
        | some s => rfl
        | none => exact absurd (by simp [h2]) hnp
  · intro h
    cases hf : src.find? (fun p => (lookupSpec reg p.1).isNone) with
    | none => rfl
    | some q =>
        have hq := List.find?_some hf
        have hmem := List.mem_of_find?_eq_some hf
        have h2 := h q hmem
        rw [Option.isNone_iff_eq_none] at hq
        rw [hq] at h2
        cases h2

theorem firstUnknown_eq_some {reg : List OptionSpec} {src : OptMap} {n : String}
    (h : firstUnknown reg src = some n) :
    (∃ v, (n, v) ∈ src) ∧ lookupSpec reg n = none := by
  unfold firstUnknown at h
  cases hf : src.find? (fun p => (lookupSpec reg p.1).isNone) with
  | none => rw [hf] at h; cases h
  | some q =>
      rw [hf] at h
      cases h
      have hq := List.find?_some hf
      have hmem := List.mem_of_find?_eq_some hf
      refine ⟨⟨q.2, ?_⟩, ?_⟩
      · simpa using hmem
      · simpa [Option.isNone_iff_eq_none] using hq

theorem firstUnknown_isSome {reg : List OptionSpec} {src : OptMap} {p : String × OptionVal}
    (hp : p ∈ src) (hu : lookupSpec reg p.1 = none) :
    ∃ n, firstUnknown reg src = some n := by
  unfold firstUnknown
  cases hf : src.find? (fun q => (lookupSpec reg q.1).isNone) with
  | none =>
      have := List.find?_eq_none.mp hf p hp
      rw [hu] at this
      simp at this
  | some q => exact ⟨q.1, rfl⟩

/-! ### Lemmas about single-option resolution -/

theorem checkTy_ok_iff {spec : OptionSpec} {ov : Option OptionVal} :
    checkTy spec ov = .ok () ↔ ∀ v, ov = some v → v.ty = spec.ty := by
  cases ov with
  | none => simp [checkTy]
  | some v =>
      by_cases h : v.ty = spec.ty
      · simp [checkTy, h]
      · simp [checkTy, h]

theorem resolveName_checks {spec : OptionSpec} {dv lv cv : Option OptionVal}
    {r : Option OptionValue} (h : resolveName spec dv lv cv = .ok r) :
    checkTy spec dv = .ok () ∧ checkTy spec lv = .ok () ∧ checkTy spec cv = .ok () := by
  unfold resolveName at h
  cases hdo : checkTy spec dv with
  | error e => simp only [hdo] at h; exact Except.noConfusion h
  | ok u =>
      cases u
      simp only [hdo] at h
      cases hlo : checkTy spec lv with
      | error e => simp only [hlo] at h; exact Except.noConfusion h
      | ok u =>
          cases u
          simp only [hlo] at h
          cases hco : checkTy spec cv with
          | error e => simp only [hco] at h; exact Except.noConfusion h
          | ok u => cases u; exact ⟨rfl, rfl, rfl⟩

theorem resolveName_ok {spec : OptionSpec} {dv lv cv : Option OptionVal}
    {r : Option OptionValue} (h : resolveName spec dv lv cv = .ok r) :
    r.map (fun ov => ov.value) = pick3 cv lv dv ∧
      ∀ ov, r = some ov → ov.name = spec.name ∧ ov.value.ty = spec.ty := by
  obtain ⟨hdo2, hlo2, hco2⟩ := resolveName_checks h
  have hdo := checkTy_ok_iff.mp hdo2
  have hlo := checkTy_ok_iff.mp hlo2
  have hco := checkTy_ok_iff.mp hco2
  unfold resolveName at h
  simp only [hdo2, hlo2, hco2] at h
  cases lv with
  | none =>
      cases cv with
      | none =>
          cases dv with
          | none =>
              simp only at h
              cases h
              exact ⟨rfl, by intro ov h2; cases h2⟩
          | some d =>
              simp only at h
              cases h
              refine ⟨rfl, ?_⟩
              intro ov h2
              injection h2 with h3
              subst h3
              exact ⟨rfl, hdo d rfl⟩
      | some v =>
          simp only at h
          cases h
          refine ⟨rfl, ?_⟩
          intro ov h2
          injection h2 with h3
          subst h3
          exact ⟨rfl, hco v rfl⟩
  | some w =>
      cases cv with
      | none =>
          simp only at h
          cases h
          refine ⟨rfl, ?_⟩
          intro ov h2
          injection h2 with h3
          subst h3
          exact ⟨rfl, hlo w rfl⟩
      | some v =>
          simp only at h
          by_cases hmu : spec.mutableAfterLoad = true
          · rw [if_pos hmu] at h
            cases h
            refine ⟨rfl, ?_⟩
            intro ov h2
            injection h2 with h3
            subst h3
            exact ⟨rfl, hco v rfl⟩
          · rw [if_neg hmu] at h
            by_cases heq : w = v
            · rw [if_pos heq] at h
              cases h
              refine ⟨rfl, ?_⟩
              intro ov h2
              injection h2 with h3
              subst h3
              exact ⟨rfl, hco v rfl⟩
            · rw [if_neg heq] at h
              exact Except.noConfusion h

theorem resolveName_total {spec : OptionSpec} {dv lv cv : Option OptionVal}
    (hd : ∀ v, dv = some v → v.ty = spec.ty)
    (hl : ∀ v, lv = some v → v.ty = spec.ty)
    (hc : ∀ v, cv = some v → v.ty = spec.ty)
    (hnc : ∀ w v, lv = some w → cv = some v →
      spec.mutableAfterLoad = true ∨ w = v) :
    ∃ r, resolveName spec dv lv cv = .ok r := by
  have hdo : checkTy spec dv = .ok () := checkTy_ok_iff.mpr hd
  have hlo : checkTy spec lv = .ok () := checkTy_ok_iff.mpr hl
  have hco : checkTy spec cv = .ok () := checkTy_ok_iff.mpr hc
  cases lv with
  | none =>
      cases cv with
      | none =>
          cases dv with
          | none => exact ⟨none, by simp [resolveName, hdo, hlo, hco]⟩
          | some d => exact ⟨some ⟨spec.name, d, .pDefault⟩, by simp [resolveName, hdo, hlo, hco]⟩
      | some v => exact ⟨some ⟨spec.name, v, .pCommandLine⟩, by simp [resolveName, hdo, hlo, hco]⟩
  | some w =>
      cases cv with
      | none => exact ⟨some ⟨spec.name, w, .pLoadedModel⟩, by simp [resolveName, hdo, hlo, hco]⟩
      | some v =>
          rcases hnc w v rfl rfl with hmu | heq
          · exact ⟨some ⟨spec.name, v, .pCommandLine⟩, by simp [resolveName, hdo, hlo, hco, hmu]⟩
          · subst heq
            by_cases hmu : spec.mutableAfterLoad = true
            · exact ⟨some ⟨spec.name, w, .pCommandLine⟩, by simp [resolveName, hdo, hlo, hco, hmu]⟩
            · exact ⟨some ⟨spec.name, w, .pCommandLine⟩, by simp [resolveName, hdo, hlo, hco, hmu]⟩

theorem resolveName_error {spec : OptionSpec} {dv lv cv : Option OptionVal} {e : Err}
    (h : resolveName spec dv lv cv = .error e)
    (hd : ∀ v, dv = some v → v.ty = spec.ty)
    (hl : ∀ v, lv = some v → v.ty = spec.ty)
    (hc : ∀ v, cv = some v → v.ty = spec.ty) :
    ∃ w v, e = .ConfigurationConflict spec.name w v ∧ lv = some w ∧ cv = some v ∧
      spec.mutableAfterLoad = false ∧ w ≠ v := by
  have hdo : checkTy spec dv = .ok () := checkTy_ok_iff.mpr hd
  have hlo : checkTy spec lv = .ok () := checkTy_ok_iff.mpr hl
  have hco : checkTy spec cv = .ok () := checkTy_ok_iff.mpr hc
  unfold resolveName at h
  simp only [hdo, hlo, hco] at h
  cases lv with
  | none =>
      cases cv with
      | none => cases dv <;> exact Except.noConfusion h
      | some v => exact Except.noConfusion h
  | some w =>
      cases cv with
      | none => exact Except.noConfusion h
      | some v =>
          simp only at h
          by_cases hmu : spec.mutableAfterLoad = true
          · rw [if_pos hmu] at h
            exact Except.noConfusion h
          · rw [if_neg hmu] at h
            by_cases heq : w = v
            · rw [if_pos heq] at h
              exact Except.noConfusion h
            · rw [if_neg heq] at h
              injection h with h2
              subst h2
              exact ⟨w, v, rfl, rfl, rfl, by simpa using hmu, heq⟩

/-! ### Lemmas about whole-registry resolution -/

theorem lookupSpec_cons {s : OptionSpec} {rest : List OptionSpec} {n : String} :
    lookupSpec (s :: rest) n =
      if s.name == n then some s else lookupSpec rest n := by
  unfold lookupSpec
  cases hb : (s.name == n) with
  | true => simp [List.find?, hb]
  | false => simp [List.find?, hb]

theorem cfgLookup_cons {ov : OptionValue} {cfg : ResolvedConfiguration} {n : String} :
    cfgLookup (ov :: cfg) n =
      if ov.name == n then some ov.value else cfgLookup cfg n := by
  unfold cfgLookup
  cases hb : (ov.name == n) with
  | true => simp [List.find?, hb]
  | false => simp [List.find?, hb]

theorem cfgLookup_eq_none {cfg : ResolvedConfiguration} {n : String}
    (h : n ∉ cfg.map (fun ov => ov.name)) : cfgLookup cfg n = none := by
  induction cfg with
  | nil => rfl
  | cons ov rest ih =>
      simp only [List.map_cons, List.mem_cons, not_or] at h
      rw [cfgLookup_cons]
      have hb : (ov.name == n) = false := by
        simp only [beq_eq_false_iff_ne, ne_eq]
        intro hc
        exact h.1 hc.symm
      rw [hb]
      simp only [Bool.false_eq_true, if_false]
      exact ih h.2

theorem resolveList_pointwise {d l c : OptMap} {reg : List OptionSpec}
    {cfg : ResolvedConfiguration} (h : resolveList d l c reg = .ok cfg) :
    ∀ s ∈ reg, ∃ r, resolveName s (d.lookup s.name) (l.lookup s.name) (c.lookup s.name) = .ok r := by
  induction reg generalizing cfg with
  | nil => intro s hs; cases hs
  | cons spec rest ih =>
      intro s hs
      unfold resolveList at h
      cases hr : resolveName spec (d.lookup spec.name) (l.lookup spec.name) (c.lookup spec.name) with
      | error e => rw [hr] at h; exact Except.noConfusion h
      | ok r =>
          rw [hr] at h
          rcases List.mem_cons.mp hs with h2 | h2
          · subst h2; exact ⟨r, hr⟩
          · cases r with
            | none => exact ih h s h2
            | some ov =>
                cases ht : resolveList d l c rest with
                | error e => rw [ht] at h; exact Except.noConfusion h
                | ok tail => exact ih ht s h2

theorem resolveList_names {d l c : OptMap} {reg : List OptionSpec}
    {cfg : ResolvedConfiguration} (h : resolveList d l c reg = .ok cfg) :
    (cfg.map (fun ov => ov.name)).Sublist (reg.map (fun s => s.name)) := by
  induction reg generalizing cfg with
  | nil =>
      unfold resolveList at h
      cases h
      exact List.Sublist.refl _
  | cons spec rest ih =>
      unfold resolveList at h
      cases hr : resolveName spec (d.lookup spec.name) (l.lookup spec.name) (c.lookup spec.name) with
      | error e => rw [hr] at h; exact Except.noConfusion h
      | ok r =>
          rw [hr] at h
          cases r with
          | none => exact (ih h).trans (List.sublist_cons_self _ _)
          | some ov =>
              cases ht : resolveList d l c rest with
              | error e => rw [ht] at h; exact Except.noConfusion h
              | ok tail =>
                  rw [ht] at h
                  cases h
                  have hname : ov.name = spec.name := ((resolveName_ok hr).2 ov rfl).1
                  simp only [List.map_cons, hname]
                  exact List.Sublist.cons₂ _ (ih ht)

theorem resolveList_total {d l c : OptMap} {reg : List OptionSpec}
    (H : ∀ s ∈ reg, ∃ r, resolveName s (d.lookup s.name) (l.lookup s.name) (c.lookup s.name) = .ok r) :
    ∃ cfg, resolveList d l c reg = .ok cfg := by
  induction reg with
  | nil => exact ⟨[], rfl⟩
  | cons spec rest ih =>
      rcases H spec (List.mem_cons_self spec rest) with ⟨r, hr⟩
      rcases ih (fun s hs => H s (List.mem_cons_of_mem _ hs)) with ⟨cfg, hcfg⟩
      cases r with
      | none => exact ⟨cfg, by unfold resolveList; rw [hr]; exact hcfg⟩
      | some ov => exact ⟨ov :: cfg, by unfold resolveList; rw [hr, hcfg]⟩

theorem resolveList_error {d l c : OptMap} {reg : List OptionSpec} {e : Err}
    (h : resolveList d l c reg = .error e) :
    ∃ s ∈ reg, resolveName s (d.lookup s.name) (l.lookup s.name) (c.lookup s.name) = .error e := by
  induction reg with
  | nil => exact Except.noConfusion h
  | cons spec rest ih =>
      unfold resolveList at h
      cases hr : resolveName spec (d.lookup spec.name) (l.lookup spec.name) (c.lookup spec.name) with
      | error e2 =>
          rw [hr] at h
          injection h with h2
          subst h2
          exact ⟨spec, List.mem_cons_self spec rest, hr⟩
      | ok r =>
          rw [hr] at h
          cases r with
          | none =>
              rcases ih h with ⟨s, hs, herr⟩
              exact ⟨s, List.mem_cons_of_mem _ hs, herr⟩
          | some ov =>
              cases ht : resolveList d l c rest with
              | error e2 =>
                  rw [ht] at h
                  injection h with h2
                  subst h2
                  rcases ih ht with ⟨s, hs, herr⟩
                  exact ⟨s, List.mem_cons_of_mem _ hs, herr⟩
              | ok tail => rw [ht] at h; exact Except.noConfusion h

theorem resolveList_lookup {d l c : OptMap} {reg : List OptionSpec}
    {cfg : ResolvedConfiguration}
    (hnd : (reg.map (fun s => s.name)).Nodup)
    (h : resolveList d l c reg = .ok cfg) :
    ∀ n spec, lookupSpec reg n = some spec →
      cfgLookup cfg n = pick3 (c.lookup n) (l.lookup n) (d.lookup n) := by
  induction reg generalizing cfg with
  | nil => intro n spec hs; exact Option.noConfusion hs
  | cons spec0 rest ih =>
      intro n spec hs
      simp only [List.map_cons, List.nodup_cons] at hnd
      unfold resolveList at h
      rw [lookupSpec_cons] at hs
      cases hb : (spec0.name == n) with
      | true =>
          rw [hb] at hs
          simp only [if_true] at hs
          have hn : spec0.name = n := by simpa using hb
          cases hr : resolveName spec0 (d.lookup spec0.name) (l.lookup spec0.name) (c.lookup spec0.name) with
          | error e => rw [hr] at h; exact Except.noConfusion h
          | ok r =>
              rw [hr] at h
              have hmap := (resolveName_ok hr).1
              cases r with
              | none =>
                  have hnone : pick3 (c.lookup spec0.name) (l.lookup spec0.name) (d.lookup spec0.name) = none := by
                    simpa using hmap.symm
                  rw [← hn]
                  rw [hnone]
                  apply cfgLookup_eq_none
                  intro hmem
                  have hsub := resolveList_names h
                  exact hnd.1 (hsub.subset hmem)
              | some ov =>
                  cases ht : resolveList d l c rest with
                  | error e => rw [ht] at h; exact Except.noConfusion h
                  | ok tail =>
                      rw [ht] at h
                      cases h
                      rw [← hn, cfgLookup_cons]
                      have hname : ov.name = spec0.name := ((resolveName_ok hr).2 ov rfl).1
                      rw [hname]
                      simp only [beq_self_eq_true, if_true]
                      simpa using hmap
      | false =>
          rw [hb] at hs
          simp only [Bool.false_eq_true, if_false] at hs
          have hn : spec0.name ≠ n := by simpa using hb
          cases hr : resolveName spec0 (d.lookup spec0.name) (l.lookup spec0.name) (c.lookup spec0.name) with
          | error e => rw [hr] at h; exact Except.noConfusion h
          | ok r =>
              rw [hr] at h
              cases r with
              | none => exact ih hnd.2 h n spec hs
              | some ov =>
                  cases ht : resolveList d l c rest with
                  | error e => rw [ht] at h; exact Except.noConfusion h
                  | ok tail =>
                      rw [ht] at h
                      cases h
                      rw [cfgLookup_cons]
                      have hname : ov.name = spec0.name := ((resolveName_ok hr).2 ov rfl).1
                      have hb2 : (ov.name == n) = false := by
                        rw [hname]
                        simpa using hn
                      rw [hb2]
                      simp only [Bool.false_eq_true, if_false]
                      exact ih hnd.2 ht n spec hs

theorem resolveList_entries {d l c : OptMap} {reg : List OptionSpec}
    {cfg : ResolvedConfiguration} (h : resolveList d l c reg = .ok cfg) :
    ∀ ov ∈ cfg, ∃ s ∈ reg, ov.name = s.name ∧ ov.value.ty = s.ty := by
  induction reg generalizing cfg with
  | nil =>
      unfold resolveList at h
      cases h
      intro ov hov
      cases hov
  | cons spec rest ih =>
      unfold resolveList at h
      cases hr : resolveName spec (d.lookup spec.name) (l.lookup spec.name) (c.lookup spec.name) with
      | error e => rw [hr] at h; exact Except.noConfusion h
      | ok r =>
          rw [hr] at h
          cases r with
          | none =>
              intro ov hov
              rcases ih h ov hov with ⟨s, hs, h1, h2⟩
              exact ⟨s, List.mem_cons_of_mem _ hs, h1, h2⟩
          | some ov0 =>
              cases ht : resolveList d l c rest with
              | error e => rw [ht] at h; exact Except.noConfusion h
              | ok tail =>
                  rw [ht] at h
                  cases h
                  intro ov hov
                  rcases List.mem_cons.mp hov with h2 | h2
                  · subst h2
                    rcases (resolveName_ok hr).2 ov rfl with ⟨h3, h4⟩
                    exact ⟨spec, List.mem_cons_self spec rest, h3, h4⟩
                  · rcases ih ht ov h2 with ⟨s, hs, h3, h4⟩
                    exact ⟨s, List.mem_cons_of_mem _ hs, h3, h4⟩

theorem resolve_ok_inv {reg : List OptionSpec} {d l c : OptMap}
    {cfg : ResolvedConfiguration} (h : resolve reg d l c = .ok cfg) :
    firstUnknown reg d = none ∧ firstUnknown reg l = none ∧
      firstUnknown reg c = none ∧ resolveList d l c reg = .ok cfg := by
  unfold resolve at h
  cases hd : firstUnknown reg d with
  | some n => rw [hd] at h; exact Except.noConfusion h
  | none =>
      rw [hd] at h
      cases hl : firstUnknown reg l with
      | some n => rw [hl] at h; exact Except.noConfusion h
      | none =>
          rw [hl] at h
          cases hc : firstUnknown reg c with
          | some n => rw [hc] at h; exact Except.noConfusion h
          | none =>
              rw [hc] at h
              exact ⟨rfl, rfl, rfl, h⟩

theorem resolve_of_parts {reg : List OptionSpec} {d l c : OptMap}
    (hd : firstUnknown reg d = none) (hl : firstUnknown reg l = none)
    (hc : firstUnknown reg c = none) :
    resolve reg d l c = resolveList d l c reg := by
  unfold resolve
  rw [hd, hl, hc]

theorem lookup_pair_mem {l : List (String × OptionVal)} {k : String} {v : OptionVal}
    (h : l.lookup k = some v) : (k, v) ∈ l := by
  induction l with
  | nil => cases h
  | cons p rest ih =>
      rcases p with ⟨k2, v2⟩
      rw [List.lookup_cons] at h
      cases hb : (k == k2) with
      | true =>
          rw [hb] at h
          injection h with h2
          subst h2
          have : k = k2 := by simpa using hb
          subst this
          exact List.mem_cons_self _ _
      | false =>
          rw [hb] at h
          exact List.mem_cons_of_mem _ (ih h)

theorem namesKnownB_spec {reg : List OptionSpec} {src : OptMap}
    (h : namesKnownB reg src = true) :
    ∀ p ∈ src, (lookupSpec reg p.1).isSome = true := by
  intro p hp
  exact List.all_eq_true.mp h p hp

theorem typesFitB_spec {reg : List OptionSpec} {src : OptMap}
    (h : typesFitB reg src = true) :
    ∀ n v spec, src.lookup n = some v → lookupSpec reg n = some spec →
      v.ty = spec.ty := by
  intro n v spec hlv hls
  have hmem := lookup_pair_mem hlv
  have := List.all_eq_true.mp h (n, v) hmem
  simp only [hls, hlv] at this
  simpa using this

theorem noConflictsB_spec {reg : List OptionSpec} {l c : OptMap}
    (h : noConflictsB reg l c = true) :
    ∀ n spec w v, lookupSpec reg n = some spec → l.lookup n = some w →
      c.lookup n = some v → spec.mutableAfterLoad = true ∨ w = v := by
  intro n spec w v hls hlw hcv
  have hmem := lookup_pair_mem hlw
  have := List.all_eq_true.mp h (n, w) hmem
  simp only [hls, hlw, hcv] at this
  rcases Bool.or_eq_true_iff.mp this with h2 | h2
  · exact Or.inl h2
  · exact Or.inr (by simpa using h2)

/-! ### Claim theorems for the Option Resolver -/

/-- Claim C1: for every option name, resolution picks the value of highest
precedence among the three sources: a command-line value wins; otherwise a
value from a loaded model stands; otherwise the compiled-in default is
used.  Under well-formed inputs (registered names, fitting types, no
non-mutable conflict) resolution succeeds and every registered name
resolves to exactly the highest-precedence value supplied for it. -/
theorem claim1_resolution_precedence {reg : List OptionSpec} {d l c : OptMap}
    (hnd : (reg.map (fun s => s.name)).Nodup)
    (hkd : namesKnownB reg d = true) (hkl : namesKnownB reg l = true)
    (hkc : namesKnownB reg c = true)
    (htd : typesFitB reg d = true) (htl : typesFitB reg l = true)
    (htc : typesFitB reg c = true)
    (hnc : noConflictsB reg l c = true) :
    ∃ cfg, resolve reg d l c = .ok cfg ∧
      ∀ n spec, lookupSpec reg n = some spec →
        cfgLookup cfg n = pick3 (c.lookup n) (l.lookup n) (d.lookup n) := by
  have hfd : firstUnknown reg d = none := firstUnknown_eq_none_iff.mpr (namesKnownB_spec hkd)
  have hfl : firstUnknown reg l = none := firstUnknown_eq_none_iff.mpr (namesKnownB_spec hkl)
  have hfc : firstUnknown reg c = none := firstUnknown_eq_none_iff.mpr (namesKnownB_spec hkc)
  have htotal : ∀ s ∈ reg, ∃ r,
      resolveName s (d.lookup s.name) (l.lookup s.name) (c.lookup s.name) = .ok r := by
    intro s hs
    have hself : lookupSpec reg s.name = some s := lookupSpec_self hnd hs
    apply resolveName_total
    · intro v hv; exact typesFitB_spec htd s.name v s hv hself
    · intro v hv; exact typesFitB_spec htl s.name v s hv hself
    · intro v hv; exact typesFitB_spec htc s.name v s hv hself
    · intro w v hw hv; exact noConflictsB_spec hnc s.name s w v hself hw hv
  rcases resolveList_total htotal with ⟨cfg, hcfg⟩
  refine ⟨cfg, ?_, ?_⟩
  · rw [resolve_of_parts hfd hfl hfc]; exact hcfg
  · exact resolveList_lookup hnd hcfg

/-- Claim C2: when a loaded model binds an option not marked
mutable-after-load and the command line binds the same option to a
different value, resolution fails with a ConfigurationConflict that
reports a genuinely conflicting option: its name, the loaded value and
the requested value. -/
theorem claim2_conflict_rejected {reg : List OptionSpec} {d l c : OptMap}
    {n : String} {spec : OptionSpec} {w v : OptionVal}
    (hnd : (reg.map (fun s => s.name)).Nodup)
    (hkd : namesKnownB reg d = true) (hkl : namesKnownB reg l = true)
    (hkc : namesKnownB reg c = true)
    (htd : typesFitB reg d = true) (htl : typesFitB reg l = true)
    (htc : typesFitB reg c = true)
    (hs : lookupSpec reg n = some spec) (hmu : spec.mutableAfterLoad = false)
    (hw : l.lookup n = some w) (hv : c.lookup n = some v) (hne : w ≠ v) :
    ∃ n2 spec2 w2 v2,
      resolve reg d l c = .error (.ConfigurationConflict n2 w2 v2) ∧
        lookupSpec reg n2 = some spec2 ∧ spec2.mutableAfterLoad = false ∧
        l.lookup n2 = some w2 ∧ c.lookup n2 = some v2 ∧ w2 ≠ v2 := by
  have hfd : firstUnknown reg d = none := firstUnknown_eq_none_iff.mpr (namesKnownB_spec hkd)
  have hfl : firstUnknown reg l = none := firstUnknown_eq_none_iff.mpr (namesKnownB_spec hkl)
  have hfc : firstUnknown reg c = none := firstUnknown_eq_none_iff.mpr (namesKnownB_spec hkc)
  have hres := @resolve_of_parts reg d l c hfd hfl hfc
  cases hrl : resolveList d l c reg with
  | ok cfg =>
      exfalso
      rcases lookupSpec_mem hs with ⟨hmem, hname⟩
      rcases resolveList_pointwise hrl spec hmem with ⟨r, hr⟩
      rw [hname] at hr
      obtain ⟨hdo, hlo, hco⟩ := resolveName_checks hr
      rw [hw] at hlo
      rw [hv] at hco
      unfold resolveName at hr
      simp only [hw, hv, hdo, hlo, hco] at hr
      rw [if_neg (by simp [hmu]), if_neg hne] at hr
      exact Except.noConfusion hr
  | error e =>
      rcases resolveList_error hrl with ⟨s, hsmem, herr⟩
      have hself : lookupSpec reg s.name = some s := lookupSpec_self hnd hsmem
      rcases resolveName_error herr
          (fun v2 hv2 => typesFitB_spec htd s.name v2 s hv2 hself)
          (fun v2 hv2 => typesFitB_spec htl s.name v2 s hv2 hself)
          (fun v2 hv2 => typesFitB_spec htc s.name v2 s hv2 hself) with
        ⟨w2, v2, he, hl2, hc2, hmu2, hne2⟩
      subst he
      exact ⟨s.name, s, w2, v2, by rw [hres, hrl], hself, hmu2, hl2, hc2, hne2⟩

theorem parseArgsCore_resolve_error {reg : List OptionSpec}
    {stages : List StageDescriptor} {d l c : OptMap} {e : Err}
    (h : resolve reg d l c = .error e) :
    parseArgsCore reg stages d l c = .error e := by
  unfold parseArgsCore
  rw [h]

theorem parseArgsCore_select_error {reg : List OptionSpec}
    {stages : List StageDescriptor} {d l c : OptMap}
    {cfg : ResolvedConfiguration} {e : Err}
    (h1 : resolve reg d l c = .ok cfg) (h2 : selectStages stages cfg = .error e) :
    parseArgsCore reg stages d l c = .error e := by
  unfold parseArgsCore
  simp only [h1, h2]

/-- Claim C7: an option name with no registered OptionSpec in any of the
three sources makes the whole run fail with UnknownOption carrying an
unregistered name present in the sources, and no Pipeline is assembled. -/
theorem claim7_unknown_option {reg : List OptionSpec}
    {stages : List StageDescriptor} {d l c : OptMap} {p : String × OptionVal}
    (hp : p ∈ d ++ l ++ c) (hu : lookupSpec reg p.1 = none) :
    ∃ m, parseArgsCore reg stages d l c = .error (.UnknownOption m) ∧
      lookupSpec reg m = none ∧ ∃ w, (m, w) ∈ d ++ l ++ c := by
  cases hd : firstUnknown reg d with
  | some n =>
      rcases firstUnknown_eq_some hd with ⟨⟨w, hw⟩, hun⟩
      refine ⟨n, ?_, hun, w, List.mem_append_left _ (List.mem_append_left _ hw)⟩
      apply parseArgsCore_resolve_error
      unfold resolve
      rw [hd]
  | none =>
      have hpd : p ∉ d := by
        intro hmem
        have := firstUnknown_eq_none_iff.mp hd p hmem
        rw [hu] at this
        cases this
      cases hl : firstUnknown reg l with
      | some n =>
          rcases firstUnknown_eq_some hl with ⟨⟨w, hw⟩, hun⟩
          refine ⟨n, ?_, hun, w,
            List.mem_append_left _ (List.mem_append_right _ hw)⟩
          apply parseArgsCore_resolve_error
          unfold resolve
          rw [hd, hl]
      | none =>
          have hpl : p ∉ l := by
            intro hmem
            have := firstUnknown_eq_none_iff.mp hl p hmem
            rw [hu] at this
            cases this
          have hpc : p ∈ c := by
            rcases List.mem_append.mp hp with h2 | h2
            · rcases List.mem_append.mp h2 with h3 | h3
              · exact absurd h3 hpd
              · exact absurd h3 hpl
            · exact h2
          rcases firstUnknown_isSome hpc hu with ⟨n, hn⟩
          rcases firstUnknown_eq_some hn with ⟨⟨w, hw⟩, hun⟩
          refine ⟨n, ?_, hun, w, List.mem_append_right _ hw⟩
          apply parseArgsCore_resolve_error
          unfold resolve
          rw [hd, hl, hn]

/-- Concrete instantiation of claim C7 at the fixture inputs:
nonexistent_flag on the command line aborts the run. -/
theorem claim7_witness :
    ∃ m, parseArgsCore regW stagesW dW lW cWunk = .error (.UnknownOption m) ∧
      lookupSpec regW m = none ∧ ∃ w, (m, w) ∈ dW ++ lW ++ cWunk :=
  @claim7_unknown_option regW stagesW dW lW cWunk ("nonexistent_flag", .vBool true)
    (by decide) (by decide)

/-- Claim C4: resolution and stage selection are deterministic: two runs
on identical (defaults, loadedModelOptions, commandLineOptions) triples
over the same registries produce identical resolved configurations and
identical stage orders. -/
theorem claim4_determinism {reg1 reg2 : List OptionSpec}
    {stages1 stages2 : List StageDescriptor} {d1 d2 l1 l2 c1 c2 : OptMap}
    (hr : reg1 = reg2) (hs : stages1 = stages2)
    (hd : d1 = d2) (hl : l1 = l2) (hc : c1 = c2) :
    resolve reg1 d1 l1 c1 = resolve reg2 d2 l2 c2 ∧
      ∀ cfg1 cfg2, resolve reg1 d1 l1 c1 = .ok cfg1 →
        resolve reg2 d2 l2 c2 = .ok cfg2 →
        cfg1 = cfg2 ∧ selectStages stages1 cfg1 = selectStages stages2 cfg2 := by
  subst hr hs hd hl hc
  refine ⟨rfl, ?_⟩
  intro cfg1 cfg2 h1 h2
  rw [h1] at h2
  injection h2 with h3
  exact ⟨h3, by rw [h3]⟩

/-- Concrete instantiation of claim C4 at the fixture inputs. -/
theorem claim4_witness :
    resolve regW dW lW cW = resolve regW dW lW cW ∧
      ∀ cfg1 cfg2, resolve regW dW lW cW = .ok cfg1 →
        resolve regW dW lW cW = .ok cfg2 →
        cfg1 = cfg2 ∧ selectStages stagesW cfg1 = selectStages stagesW cfg2 :=
  claim4_determinism rfl rfl rfl rfl rfl

theorem lookupSpec_eq_none_iff {reg : List OptionSpec} {n : String} :
    lookupSpec reg n = none ↔ ∀ s ∈ reg, s.name ≠ n := by
  unfold lookupSpec
  rw [List.find?_eq_none]
  constructor
  · intro h s hs
    have := h s hs
    simpa using this
  · intro h s hs
    have := h s hs
    simpa using this

theorem registerAll_nodup {specs reg0 reg : List OptionSpec}
    (hnd0 : (reg0.map (fun s => s.name)).Nodup)
    (h : registerAll reg0 specs = .ok reg) :
    (reg.map (fun s => s.name)).Nodup := by
  induction specs generalizing reg0 with
  | nil =>
      unfold registerAll at h
      cases h
      exact hnd0
  | cons s rest ih =>
      unfold registerAll at h
      cases hreg : register reg0 s with
      | error e => simp only [hreg] at h; exact Except.noConfusion h
      | ok reg2 =>
          simp only [hreg] at h
          apply ih _ h
          unfold register at hreg
          cases hls : lookupSpec reg0 s.name with
          | some t =>
              simp only [hls] at hreg
              by_cases hty : t.ty = s.ty
              · rw [if_pos hty] at hreg
                injection hreg with h2
                subst h2
                exact hnd0
              · rw [if_neg hty] at hreg
                exact Except.noConfusion hreg
          | none =>
              simp only [hls] at hreg
              injection hreg with h2
              subst h2
              rw [List.map_append, List.nodup_append]
              refine ⟨hnd0, List.nodup_singleton _, ?_⟩
              intro a ha hb
              simp only [List.map_cons, List.map_nil, List.mem_singleton] at hb
              subst hb
              rcases List.mem_map.mp ha with ⟨t, ht, hteq⟩
              exact lookupSpec_eq_none_iff.mp hls t ht hteq

/-- Claim C9: every successfully produced ResolvedConfiguration maps each
present option name to exactly one value and provenance, every present
name has a registered OptionSpec of matching type, and serialization
keeps exactly the same one-entry-per-name shape. -/
theorem claim9_configuration_invariant {specs reg : List OptionSpec}
    {d l c : OptMap} {cfg : ResolvedConfiguration}
    (hreg : registerAll [] specs = .ok reg) (h : resolve reg d l c = .ok cfg) :
    (cfg.map (fun ov => ov.name)).Nodup ∧
      (∀ ov ∈ cfg, ∃ s, lookupSpec reg ov.name = some s ∧ ov.value.ty = s.ty) ∧
      (serialize cfg).map Prod.fst = cfg.map (fun ov => ov.name) := by
  have hnd : (reg.map (fun s => s.name)).Nodup :=
    registerAll_nodup (by simp) hreg
  obtain ⟨_, _, _, hrl⟩ := resolve_ok_inv h
  refine ⟨?_, ?_, ?_⟩
  · exact (resolveList_names hrl).nodup hnd
  · intro ov hov
    rcases resolveList_entries hrl ov hov with ⟨s, hs, h1, h2⟩
    refine ⟨s, ?_, h2⟩
    rw [h1]
    exact lookupSpec_self hnd hs
  · simp [serialize]

/-- Concrete instantiation of claim C9 at the fixture inputs. -/
theorem claim9_witness :
    (cfgW.map (fun ov => ov.name)).Nodup ∧
      (∀ ov ∈ cfgW, ∃ s, lookupSpec regW ov.name = some s ∧ ov.value.ty = s.ty) ∧
      (serialize cfgW).map Prod.fst = cfgW.map (fun ov => ov.name) :=
  @claim9_configuration_invariant regW regW dW lW cW cfgW (by decide) (by decide)

theorem checkTy_error_userFacing {spec : OptionSpec} {ov : Option OptionVal} {e : Err}
    (h : checkTy spec ov = .error e) : userFacing e = true := by
  cases ov with
  | none => exact Except.noConfusion h
  | some v =>
      unfold checkTy at h
      simp only at h
      by_cases hty : v.ty = spec.ty
      · rw [if_pos hty] at h
        exact Except.noConfusion h
      · rw [if_neg hty] at h
        injection h with h2
        subst h2
        rfl

theorem resolveName_error_userFacing {spec : OptionSpec} {dv lv cv : Option OptionVal}
    {e : Err} (h : resolveName spec dv lv cv = .error e) : userFacing e = true := by
  unfold resolveName at h
  cases hdo : checkTy spec dv with
  | error e2 =>
      simp only [hdo] at h
      injection h with h2
      subst h2
      exact checkTy_error_userFacing hdo
  | ok u =>
      cases u
      simp only [hdo] at h
      cases hlo : checkTy spec lv with
      | error e2 =>
          simp only [hlo] at h
          injection h with h2
          subst h2
          exact checkTy_error_userFacing hlo
      | ok u =>
          cases u
          simp only [hlo] at h
          cases hco : checkTy spec cv with
          | error e2 =>
              simp only [hco] at h
              injection h with h2
              subst h2
              exact checkTy_error_userFacing hco
          | ok u =>
              cases u
              simp only [hco] at h
              cases lv with
              | none =>
                  cases cv with
                  | none => cases dv <;> exact Except.noConfusion h
                  | some v => exact Except.noConfusion h
              | some w =>
                  cases cv with
                  | none => exact Except.noConfusion h
                  | some v =>
                      simp only at h
                      by_cases hmu : spec.mutableAfterLoad = true
                      · rw [if_pos hmu] at h
                        exact Except.noConfusion h
                      · rw [if_neg hmu] at h
                        by_cases heq : w = v
                        · rw [if_pos heq] at h
                          exact Except.noConfusion h
                        · rw [if_neg heq] at h
                          injection h with h2
                          subst h2
                          rfl

theorem resolve_error_userFacing {reg : List OptionSpec} {d l c : OptMap} {e : Err}
    (h : resolve reg d l c = .error e) : userFacing e = true := by
  unfold resolve at h
  cases hd : firstUnknown reg d with
  | some n =>
      rw [hd] at h
      injection h with h2
      subst h2
      rfl
  | none =>
      rw [hd] at h
      cases hl : firstUnknown reg l with
      | some n =>
          rw [hl] at h
          injection h with h2
          subst h2
          rfl
      | none =>
          rw [hl] at h
          cases hc : firstUnknown reg c with
          | some n =>
              rw [hc] at h
              injection h with h2
              subst h2
              rfl
          | none =>
              rw [hc] at h
              rcases resolveList_error h with ⟨s, _, herr⟩
              exact resolveName_error_userFacing herr

theorem prereqClosureStep_error {stages : List StageDescriptor}
    {acc : List String} {e : Err} (h : prereqClosureStep stages acc = .error e) :
    ∃ a b, e = .MissingDependency a b := by
  unfold prereqClosureStep at h
  cases hf : (prereqPairs stages acc).find? (fun q => (stageById stages q.2).isNone) with
  | some q =>
      simp only [hf] at h
      injection h with h2
      exact ⟨q.1, q.2, h2.symm⟩
  | none =>
      simp only [hf] at h
      exact Except.noConfusion h

theorem prereqClosure_error {stages : List StageDescriptor} {fuel : Nat}
    {acc : List String} {e : Err} (h : prereqClosure stages fuel acc = .error e) :
    ∃ a b, e = .MissingDependency a b := by
  induction fuel generalizing acc with
  | zero => exact Except.noConfusion h
  | succ n ih =>
      unfold prereqClosure at h
      cases hs : prereqClosureStep stages acc with
      | error e2 =>
          simp only [hs] at h
          injection h with h2
          subst h2
          exact prereqClosureStep_error hs
      | ok acc2 =>
          simp only [hs] at h
          by_cases hlen : acc2.length = acc.length
          · rw [if_pos hlen] at h
            exact Except.noConfusion h
          · rw [if_neg hlen] at h
            exact ih h

theorem kahnLoop_error {ids : List String} {fuel : Nat} {emitted : List String}
    {acc rem : List StageDescriptor} {e : Err}
    (h : kahnLoop ids fuel emitted acc rem = .error e) :
    ∃ ls, e = .CyclicStageDependency ls := by
  induction fuel generalizing emitted acc rem with
  | zero =>
      unfold kahnLoop at h
      by_cases hre : rem.isEmpty
      · rw [if_pos hre] at h
        exact Except.noConfusion h
      · rw [if_neg hre] at h
        injection h with h2
        exact ⟨onCycle rem, h2.symm⟩
  | succ n ih =>
      unfold kahnLoop at h
      cases hp : pickReady ids emitted rem with
      | none =>
          simp only [hp] at h
          by_cases hre : rem.isEmpty
          · rw [if_pos hre] at h
            exact Except.noConfusion h
          · rw [if_neg hre] at h
            injection h with h2
            exact ⟨onCycle rem, h2.symm⟩
      | some pr =>
          simp only [hp] at h
          exact ih h

theorem enabledOf_error {stages : List StageDescriptor}
    {cfg : ResolvedConfiguration} {e : Err} (h : enabledOf stages cfg = .error e) :
    ∃ a b, e = .MissingDependency a b := by
  unfold enabledOf at h
  cases hc : prereqClosure stages stages.length (idsOf (stages.filter (stageEnabled cfg))) with
  | error e2 =>
      simp only [hc] at h
      injection h with h2
      subst h2
      exact prereqClosure_error hc
  | ok ids =>
      simp only [hc] at h
      exact Except.noConfusion h

theorem selectStages_error_userFacing {stages : List StageDescriptor}
    {cfg : ResolvedConfiguration} {e : Err}
    (h : selectStages stages cfg = .error e) : userFacing e = true := by
  unfold selectStages at h
  cases he : enabledOf stages cfg with
  | error e2 =>
      simp only [he] at h
      injection h with h2
      subst h2
      rcases enabledOf_error he with ⟨a, b, h3⟩
      subst h3
      rfl
  | ok es =>
      simp only [he] at h
      rcases kahnLoop_error h with ⟨ls, h3⟩
      subst h3
      rfl

/-- Claim C8: failures are atomic and user-facing: an error from
resolution or stage selection is returned unchanged as the run result,
every failing run fails with one of the user-input error kinds carrying
its context, and a failing run never makes a Pipeline observable. -/
theorem claim8_error_atomicity {reg : List OptionSpec}
    {stages : List StageDescriptor} {d l c : OptMap} :
    (∀ e, resolve reg d l c = .error e →
      parseArgsCore reg stages d l c = .error e) ∧
    (∀ cfg e, resolve reg d l c = .ok cfg → selectStages stages cfg = .error e →
      parseArgsCore reg stages d l c = .error e) ∧
    (∀ e, parseArgsCore reg stages d l c = .error e →
      userFacing e = true ∧ ∀ p, ¬ parseArgsCore reg stages d l c = .ok p) := by
  refine ⟨fun e h => parseArgsCore_resolve_error h,
    fun cfg e h1 h2 => parseArgsCore_select_error h1 h2, ?_⟩
  intro e h
  constructor
  · unfold parseArgsCore at h
    cases hr : resolve reg d l c with
    | error e2 =>
        rw [hr] at h
        injection h with h2
        subst h2
        exact resolve_error_userFacing hr
    | ok cfg =>
        simp only [hr] at h
        cases hs : selectStages stages cfg with
        | error e2 =>
            simp only [hs] at h
            injection h with h2
            subst h2
            exact selectStages_error_userFacing hs
        | ok order =>
            simp only [hs] at h
            exact Except.noConfusion h
  · intro p hc
    rw [h] at hc
    exact Except.noConfusion hc

/-- Concrete instantiation of claim C8: the unknown-option failure is
returned as is, is user-facing, and yields no pipeline. -/
theorem claim8_witness :
    parseArgsCore regW stagesW dW lW cWunk = .error (.UnknownOption "nonexistent_flag") ∧
      userFacing (.UnknownOption "nonexistent_flag") = true ∧
      ∀ p, ¬ parseArgsCore regW stagesW dW lW cWunk = .ok p := by
  have h := @claim8_error_atomicity regW stagesW dW lW cWunk
  have h1 := h.1 (.UnknownOption "nonexistent_flag") (by decide)
  exact ⟨h1, (h.2.2 _ h1).1, (h.2.2 _ h1).2⟩

/-- Concrete instantiation of claim C1 at the fixture inputs. -/
theorem claim1_witness :
    ∃ cfg, resolve regW dW lW cW = .ok cfg ∧
      ∀ n spec, lookupSpec regW n = some spec →
        cfgLookup cfg n = pick3 (cW.lookup n) (lW.lookup n) (dW.lookup n) :=
  claim1_resolution_precedence (by decide) (by decide) (by decide) (by decide)
    (by decide) (by decide) (by decide) (by decide)

/-- Concrete instantiation of claim C2: an immutable option loaded as 20
and requested as 19 makes resolution fail with a ConfigurationConflict. -/
theorem claim2_witness :
    ∃ n2 spec2 w2 v2,
      resolve regW dW lWconf cWconf = .error (.ConfigurationConflict n2 w2 v2) ∧
        lookupSpec regW n2 = some spec2 ∧ spec2.mutableAfterLoad = false ∧
        lWconf.lookup n2 = some w2 ∧ cWconf.lookup n2 = some v2 ∧ w2 ≠ v2 :=
  @claim2_conflict_rejected regW dW lWconf cWconf "bits"
    ⟨"bits", .tInt, .vInt 18, "core", false⟩ (.vInt 20) (.vInt 19)
    (by decide) (by decide) (by decide) (by decide) (by decide) (by decide)
    (by decide) (by decide) (by decide) (by decide) (by decide) (by decide)

/-! ### Serialization round trip -/

theorem serialize_lookup {cfg : ResolvedConfiguration} {n : String} :
    (serialize cfg).lookup n = cfgLookup cfg n := by
  induction cfg with
  | nil => rfl
  | cons ov rest ih =>
      show ((ov.name, ov.value) :: serialize rest).lookup n = cfgLookup (ov :: rest) n
      rw [List.lookup_cons, cfgLookup_cons]
      by_cases heq : ov.name = n
      · simp [heq]
      · have h1 : (n == ov.name) = false := by
          simp only [beq_eq_false_iff_ne, ne_eq]
          intro hc
          exact heq hc.symm
        have h2 : (ov.name == n) = false := by simpa using heq
        rw [h1, h2]
        simpa using ih

theorem resolveList_reload {d c M : OptMap} {reg : List OptionSpec}
    {cfg : ResolvedConfiguration}
    (hnd : (reg.map (fun s => s.name)).Nodup)
    (h : resolveList d [] c reg = .ok cfg)
    (hM : ∀ s ∈ reg, M.lookup s.name = cfgLookup cfg s.name) :
    resolveList d M [] reg =
      .ok (cfg.map (fun ov => ⟨ov.name, ov.value, .pLoadedModel⟩)) := by
  induction reg generalizing cfg with
  | nil =>
      unfold resolveList at h
      cases h
      rfl
  | cons spec rest ih =>
      simp only [List.map_cons, List.nodup_cons] at hnd
      unfold resolveList at h
      cases hr : resolveName spec (d.lookup spec.name) (List.lookup spec.name [])
          (c.lookup spec.name) with
      | error e => rw [hr] at h; exact Except.noConfusion h
      | ok r =>
          rw [hr] at h
          obtain ⟨hchk, _, _⟩ := resolveName_checks hr
          cases r with
          | none =>
              have hpick := (resolveName_ok hr).1
              simp only [Option.map_none] at hpick
              have hcv : c.lookup spec.name = none := by
                cases hc2 : c.lookup spec.name with
                | none => rfl
                | some v => rw [hc2] at hpick; unfold pick3 at hpick; simp at hpick
              have hdv : d.lookup spec.name = none := by
                cases hd2 : d.lookup spec.name with
                | none => rfl
                | some v =>
                    rw [hcv, hd2] at hpick
                    unfold pick3 at hpick
                    simp at hpick
              have hMn : M.lookup spec.name = none := by
                rw [hM spec (List.mem_cons_self spec rest)]
                apply cfgLookup_eq_none
                intro hmem
                exact hnd.1 ((resolveList_names h).subset hmem)
              unfold resolveList
              have hrn : resolveName spec (d.lookup spec.name) (M.lookup spec.name)
                  (List.lookup spec.name []) = .ok none := by
                rw [hdv, hMn]
                rfl
              rw [hrn]
              exact ih hnd.2 h (fun s hs => hM s (List.mem_cons_of_mem _ hs))
          | some ov =>
              cases ht : resolveList d [] c rest with
              | error e => rw [ht] at h; exact Except.noConfusion h
              | ok tail =>
                  rw [ht] at h
                  cases h
                  rcases (resolveName_ok hr).2 ov rfl with ⟨hname, hty⟩
                  have hMv : M.lookup spec.name = some ov.value := by
                    rw [hM spec (List.mem_cons_self spec rest), cfgLookup_cons]
                    rw [hname]
                    simp
                  have hrn : resolveName spec (d.lookup spec.name) (M.lookup spec.name)
                      (List.lookup spec.name []) =
                        .ok (some ⟨spec.name, ov.value, .pLoadedModel⟩) := by
                    rw [hMv]
                    unfold resolveName
                    rw [hchk]
                    have h2 : checkTy spec (some ov.value) = .ok () :=
                      checkTy_ok_iff.mpr (by intro v hv; injection hv with hv2; rw [← hv2]; exact hty)
                    rw [h2]
                    rfl
                  unfold resolveList
                  rw [hrn]
                  have htail : resolveList d M [] rest =
                      .ok (tail.map (fun ov => ⟨ov.name, ov.value, .pLoadedModel⟩)) := by
                    apply ih hnd.2 ht
                    intro s hs
                    have hM2 := hM s (List.mem_cons_of_mem _ hs)
                    rw [cfgLookup_cons] at hM2
                    have hb : (ov.name == s.name) = false := by
                      rw [hname]
                      simp only [beq_eq_false_iff_ne, ne_eq]
                      intro hc
                      exact hnd.1 (hc ▸ List.mem_map_of_mem (fun t => t.name) hs)
                    rw [hb] at hM2
                    simpa using hM2
                  rw [htail]
                  simp only [List.map_cons]
                  rw [hname]

/-- Claim C3 (amended): re-resolving a just-serialized configuration with
an empty command line reproduces the same option names and values in the
same order, but every entry carries loaded-model provenance; the resolved
configuration is therefore not reproduced identically whenever it is
nonempty. -/
theorem claim3_roundtrip_values {reg : List OptionSpec} {d c : OptMap}
    {cfg : ResolvedConfiguration}
    (hnd : (reg.map (fun s => s.name)).Nodup)
    (h : resolve reg d [] c = .ok cfg) :
    resolve reg d (deserialize (serialize cfg)) [] =
      .ok (cfg.map (fun ov => ⟨ov.name, ov.value, .pLoadedModel⟩)) := by
  obtain ⟨hfd, _, hfc, hrl⟩ := resolve_ok_inv h
  have hfs : firstUnknown reg (deserialize (serialize cfg)) = none := by
    apply firstUnknown_eq_none_iff.mpr
    intro p hp
    rcases List.mem_map.mp hp with ⟨ov, hov, hpe⟩
    rcases resolveList_entries hrl ov hov with ⟨s, hs, h1, _⟩
    apply lookupSpec_isSome_iff.mpr
    refine ⟨s, hs, ?_⟩
    rw [← hpe]
    exact h1.symm
  have hfe : firstUnknown reg [] = none := rfl
  rw [resolve_of_parts hfd hfs hfe]
  exact resolveList_reload hnd hrl (fun s _ => serialize_lookup)

/-- Claim C3 as stated is false: at the fixture inputs the round trip
yields a configuration with identical names and values but loaded-model
provenance on every entry, which differs from the original. -/
theorem claim3_counterexample :
    resolve regW dW [] cW = .ok cfgRT ∧
      resolve regW dW (deserialize (serialize cfgRT)) [] = .ok cfgRT2 ∧
      cfgRT2 ≠ cfgRT := by
  refine ⟨by decide, by decide, by decide⟩

/-- Concrete instantiation of the amended claim C3 at the fixture
inputs. -/
theorem claim3_witness :
    resolve regW dW (deserialize (serialize cfgRT)) [] =
      .ok (cfgRT.map (fun ov => ⟨ov.name, ov.value, .pLoadedModel⟩)) :=
  @claim3_roundtrip_values regW dW cW cfgRT (by decide) (by decide)

/-! ### The public interface of parse_args.h -/

/-- Claim C10: the header's public interface is the single function
parse_args, taking the raw untokenized argument vector (int argc and
char **argv) and returning one pointer to a vw object, so tokenizing and
pipeline configuration are reachable only through this one call. -/
theorem claim10_single_entry :
    parseArgsHeaderDecls.length = 1 ∧
      parseArgsHeaderDecls =
        [⟨.cPtr (.cNamed "vw"), "parse_args", [.cInt, .cPtr (.cPtr .cChar)]⟩] ∧
      ∀ f ∈ parseArgsHeaderDecls, f.name = "parse_args" ∧
        f.params = [.cInt, .cPtr (.cPtr .cChar)] ∧ f.ret = .cPtr (.cNamed "vw") := by
  refine ⟨rfl, rfl, ?_⟩
  intro f hf
  rcases List.mem_singleton.mp hf with h
  subst h
  exact ⟨rfl, rfl, rfl⟩

/-! ### Lemmas about stage selection: readiness and reachability -/

theorem isReady_mono {ids emitted : List String} {s : StageDescriptor}
    (h : isReady ids [] s = true) : isReady ids emitted s = true := by
  unfold isReady at h ⊢
  rw [List.all_eq_true] at h ⊢
  intro p hp
  have h2 := h p hp
  rw [Bool.or_eq_true] at h2 ⊢
  rcases h2 with h2 | h2
  · exact Or.inl h2
  · simp at h2

theorem pickReady_none {ids emitted : List String} {rem : List StageDescriptor}
    (h : pickReady ids emitted rem = none) :
    ∀ s ∈ rem, isReady ids emitted s = false := by
  induction rem with
  | nil => intro s hs; cases hs
  | cons t rest ih =>
      unfold pickReady at h
      by_cases hr : isReady ids emitted t = true
      · rw [if_pos hr] at h; cases h
      · rw [if_neg hr] at h
        intro s hs
        rcases List.mem_cons.mp hs with h2 | h2
        · subst h2
          exact Bool.eq_false_iff.mpr hr
        · cases hp : pickReady ids emitted rest with
          | some pr =>
              rcases pr with ⟨a, b⟩
              simp only [hp] at h
              exact Option.noConfusion h
          | none => exact ih hp s h2

theorem pickReady_some {ids emitted : List String} {rem rest2 : List StageDescriptor}
    {t : StageDescriptor} (h : pickReady ids emitted rem = some (t, rest2)) :
    ∃ pre post, rem = pre ++ t :: post ∧ rest2 = pre ++ post ∧
      (∀ s ∈ pre, isReady ids emitted s = false) ∧ isReady ids emitted t = true := by
  induction rem generalizing rest2 with
  | nil => cases h
  | cons s rest ih =>
      unfold pickReady at h
      by_cases hr : isReady ids emitted s = true
      · rw [if_pos hr] at h
        injection h with h2
        injection h2 with h3 h4
        subst h3
        subst h4
        exact ⟨[], rest, rfl, rfl, fun s2 hs2 => absurd hs2 (List.not_mem_nil s2), hr⟩
      · rw [if_neg hr] at h
        cases hp : pickReady ids emitted rest with
        | none =>
            simp only [hp] at h
            exact Option.noConfusion h
        | some pr =>
            rcases pr with ⟨t2, r2⟩
            simp only [hp] at h
            injection h with h2
            injection h2 with h3 h4
            subst h3
            subst h4
            rcases ih hp with ⟨pre, post, he1, he2, hnr, hrt⟩
            refine ⟨s :: pre, post, by rw [he1]; rfl, by rw [he2]; rfl, ?_, hrt⟩
            intro s2 hs2
            rcases List.mem_cons.mp hs2 with h5 | h5
            · subst h5
              exact Bool.eq_false_iff.mpr hr
            · exact hnr s2 h5

theorem expandN_mem {stages : List StageDescriptor} {a : String} :
    ∀ {fuel : Nat} {acc : List String}, a ∈ acc → a ∈ expandN stages fuel acc := by
  intro fuel
  induction fuel with
  | zero => intro acc h; exact h
  | succ n ih =>
      intro acc h
      unfold expandN
      exact ih (by unfold expand; exact List.mem_append_left _ h)

theorem expand_mem_succs {stages : List StageDescriptor} {acc : List String}
    {y z : String} (hy : y ∈ acc) (hz : z ∈ succsOf stages y) :
    z ∈ expand stages acc := by
  unfold expand
  by_cases hm : z ∈ acc
  · exact List.mem_append_left _ hm
  · apply List.mem_append_right
    apply List.mem_filter.mpr
    refine ⟨List.mem_flatMap.mpr ⟨y, hy, hz⟩, ?_⟩
    simp [hm]

theorem chainB_expandN {stages : List StageDescriptor} :
    ∀ (l : List String) (y : String) (acc : List String) (fuel : Nat),
      chainB stages y l = true → y ∈ acc → l.length ≤ fuel →
      l.getLastD y ∈ expandN stages fuel acc := by
  intro l
  induction l with
  | nil =>
      intro y acc fuel _ hy _
      exact expandN_mem hy
  | cons z t ih =>
      intro y acc fuel hch hy hlen
      unfold chainB at hch
      rw [Bool.and_eq_true] at hch
      cases fuel with
      | zero => simp at hlen
      | succ n =>
          have hzs : z ∈ succsOf stages y := by
            have := hch.1
            simpa using this
          have hz : z ∈ expand stages acc := expand_mem_succs hy hzs
          have hreach := ih z (expand stages acc) n hch.2 hz
            (by simpa using Nat.le_of_succ_le_succ hlen)
          rw [List.getLastD_cons]
          exact hreach

theorem stageById_mem {stages : List StageDescriptor} {i : String} {s : StageDescriptor}
    (h : stageById stages i = some s) : s ∈ stages ∧ s.id = i := by
  unfold stageById at h
  refine ⟨List.mem_of_find?_eq_some h, ?_⟩
  have := List.find?_some h
  simpa using this

theorem stageById_self {stages : List StageDescriptor} {s : StageDescriptor}
    (hnd : (idsOf stages).Nodup) (hm : s ∈ stages) :
    stageById stages s.id = some s := by
  induction stages with
  | nil => cases hm
  | cons a rest ih =>
      unfold idsOf at hnd
      simp only [List.map_cons, List.nodup_cons] at hnd
      rcases List.mem_cons.mp hm with h | h
      · subst h
        unfold stageById
        simp [List.find?]
      · have hne : (a.id == s.id) = false := by
          simp only [beq_eq_false_iff_ne, ne_eq]
          intro hc
          exact hnd.1 (hc ▸ List.mem_map_of_mem (fun t => t.id) h)
        unfold stageById
        simp only [List.find?, hne]
        have := ih (by unfold idsOf; exact hnd.2) h
        simpa [stageById] using this

theorem succsOf_mem_iff {stages : List StageDescriptor} {s : StageDescriptor}
    {z : String} (hnd : (idsOf stages).Nodup) (hs : s ∈ stages) :
    z ∈ succsOf stages s.id ↔ z ∈ s.prereqs ∧ z ∈ idsOf stages := by
  unfold succsOf
  rw [stageById_self hnd hs]
  simp [List.mem_filter]

theorem chainB_append_iff {stages : List StageDescriptor} :
    ∀ (l1 : List String) (x y : String) (l2 : List String),
      chainB stages x (l1 ++ y :: l2) = true ↔
        (chainB stages x (l1 ++ [y]) = true ∧ chainB stages y l2 = true) := by
  intro l1
  induction l1 with
  | nil =>
      intro x y l2
      simp [chainB, Bool.and_eq_true]
  | cons z t ih =>
      intro x y l2
      simp only [List.cons_append, chainB, Bool.and_eq_true, List.append_eq]
      rw [ih]
      tauto

theorem isCycle_rotate {stages : List StageDescriptor} {cyc : List String}
    (h : isCycle stages cyc = true) {x : String} (hx : x ∈ cyc) :
    ∃ rest2, isCycle stages (x :: rest2) = true ∧ (x :: rest2).Perm cyc := by
  cases cyc with
  | nil => cases hx
  | cons x0 rest =>
      rcases List.mem_cons.mp hx with h2 | h2
      · subst h2
        exact ⟨rest, h, List.Perm.refl _⟩
      · rcases List.append_of_mem h2 with ⟨a, b, rfl⟩
        simp only [isCycle] at h
        have hsplit : chainB stages x0 (a ++ x :: (b ++ [x0])) = true := by
          rw [show a ++ x :: (b ++ [x0]) = (a ++ x :: b) ++ [x0] by simp]
          exact h
        rw [chainB_append_iff] at hsplit
        refine ⟨b ++ x0 :: a, ?_, ?_⟩
        · simp only [isCycle]
          rw [show (b ++ x0 :: a) ++ [x] = b ++ x0 :: (a ++ [x]) by simp]
          rw [chainB_append_iff]
          exact ⟨hsplit.2, hsplit.1⟩
        · have p1 : (b ++ x0 :: a).Perm (x0 :: (b ++ a)) := List.perm_middle
          have p2 : (a ++ x :: b).Perm (x :: (a ++ b)) := List.perm_middle
          have p3 : (x :: (b ++ x0 :: a)).Perm (x :: x0 :: (b ++ a)) := p1.cons x
          have p4 : (x :: x0 :: (b ++ a)).Perm (x0 :: x :: (b ++ a)) :=
            List.Perm.swap x0 x _
          have p5 : (x0 :: x :: (b ++ a)).Perm (x0 :: x :: (a ++ b)) :=
            ((List.perm_append_comm).cons x).cons x0
          have p6 : (x0 :: x :: (a ++ b)).Perm (x0 :: (a ++ x :: b)) :=
            (p2.symm).cons x0
          exact ((p3.trans p4).trans p5).trans p6

theorem reachesSelf_head {stages : List StageDescriptor} {x : String}
    {rest : List String} (hcyc : isCycle stages (x :: rest) = true)
    (hlen : (x :: rest).length ≤ stages.length) :
    reachesSelf stages x = true := by
  simp only [isCycle] at hcyc
  unfold reachesSelf
  cases rest with
  | nil =>
      simp only [List.nil_append, chainB, Bool.and_eq_true] at hcyc
      have hx : x ∈ succsOf stages x := by
        have := hcyc.1
        simpa using this
      have := @expandN_mem stages x stages.length (succsOf stages x) hx
      simpa using this
  | cons z t =>
      simp only [List.cons_append, chainB, Bool.and_eq_true] at hcyc
      have hz : z ∈ succsOf stages x := by
        have := hcyc.1
        simpa using this
      have hlen2 : (t ++ [x]).length ≤ stages.length := by
        simp only [List.length_append, List.length_cons, List.length_nil] at hlen ⊢
        omega
      have hlast := chainB_expandN (t ++ [x]) z (succsOf stages x)
        stages.length hcyc.2 hz hlen2
      have hgl : (t ++ [x]).getLastD z = x := by
        simp [List.getLastD_concat]
      rw [hgl] at hlast
      simpa using hlast

theorem chainB_transfer {es rem : List StageDescriptor}
    (hsub : rem.Sublist es) (hnd : (idsOf es).Nodup) :
    ∀ (l : List String) (y : String), chainB es y l = true → y ∈ idsOf rem →
      (∀ z ∈ l, z ∈ idsOf rem) → chainB rem y l = true := by
  have hndrem : (idsOf rem).Nodup := by
    unfold idsOf at hnd ⊢
    exact (hsub.map (fun s => s.id)).nodup hnd
  intro l
  induction l with
  | nil => intro y _ _ _; rfl
  | cons z t ih =>
      intro y hch hy hall
      unfold chainB at hch ⊢
      rw [Bool.and_eq_true] at hch ⊢
      have hz : z ∈ succsOf es y := by
        have := hch.1
        simpa using this
      constructor
      · rcases List.mem_map.mp hy with ⟨s, hs, hsid⟩
        have hin_es : s ∈ es := hsub.subset hs
        rw [← hsid] at hz ⊢
        rw [succsOf_mem_iff hnd hin_es] at hz
        have : z ∈ succsOf rem s.id :=
          (succsOf_mem_iff hndrem hs).mpr ⟨hz.1, hall z (List.mem_cons_self z t)⟩
        simpa using this
      · exact ih z hch.2 (hall z (List.mem_cons_self z t))
          (fun w hw => hall w (List.mem_cons_of_mem _ hw))

theorem mem_onCycle_of_cycle {es rem : List StageDescriptor} {cyc : List String}
    (hnd : (idsOf es).Nodup) (hsub : rem.Sublist es)
    (hc : isCycle es cyc = true) (hcnd : cyc.Nodup)
    (hin : ∀ x ∈ cyc, x ∈ idsOf rem) :
    ∀ x ∈ cyc, x ∈ onCycle rem := by
  intro x hx
  rcases isCycle_rotate hc hx with ⟨rest2, hcyc2, hperm⟩
  have hin2 : ∀ z ∈ x :: rest2, z ∈ idsOf rem := fun z hz => hin z (hperm.subset hz)
  have hnd2 : (x :: rest2).Nodup := hperm.nodup_iff.mpr hcnd
  simp only [isCycle] at hcyc2
  have hall : ∀ z ∈ rest2 ++ [x], z ∈ idsOf rem := by
    intro z hz
    rcases List.mem_append.mp hz with h2 | h2
    · exact hin2 z (List.mem_cons_of_mem _ h2)
    · rw [List.mem_singleton.mp h2]
      exact hin2 x (List.mem_cons_self _ _)
  have hchrem := chainB_transfer hsub hnd (rest2 ++ [x]) x hcyc2
    (hin2 x (List.mem_cons_self _ _)) hall
  have hlen : (x :: rest2).length ≤ rem.length := by
    have hsp : (x :: rest2).Subperm (idsOf rem) :=
      List.subperm_of_subset hnd2 (fun z hz => hin2 z hz)
    have := hsp.length_le
    simpa [idsOf] using this
  have hself : reachesSelf rem x = true :=
    reachesSelf_head (by simp only [isCycle]; exact hchrem) hlen
  unfold onCycle
  apply List.mem_filter.mpr
  exact ⟨hin2 x (List.mem_cons_self _ _), hself⟩

theorem kahnLoop_cycle_stuck {es : List StageDescriptor} {cyc : List String}
    (hnd : (idsOf es).Nodup) (hc : isCycle es cyc = true) (hcnd : cyc.Nodup) :
    ∀ (fuel : Nat) (emitted : List String) (acc rem : List StageDescriptor),
      rem.Sublist es →
      (∀ x ∈ cyc, x ∈ idsOf rem) →
      (∀ x ∈ cyc, x ∉ emitted) →
      ∃ names, kahnLoop (idsOf es) fuel emitted acc rem =
          .error (.CyclicStageDependency names) ∧ ∀ x ∈ cyc, x ∈ names := by
  have hcne : ∃ x0, x0 ∈ cyc := by
    cases cyc with
    | nil => simp [isCycle] at hc
    | cons x0 r => exact ⟨x0, List.mem_cons_self _ _⟩
  rcases hcne with ⟨x0, hx0⟩
  intro fuel
  induction fuel with
  | zero =>
      intro emitted acc rem hsub hin hnotem
      have hrne : ¬rem.isEmpty = true := by
        intro hre
        rw [List.isEmpty_iff] at hre
        subst hre
        simpa [idsOf] using hin x0 hx0
      refine ⟨onCycle rem, ?_, mem_onCycle_of_cycle hnd hsub hc hcnd hin⟩
      simp only [kahnLoop]
      rw [if_neg hrne]
  | succ n ih =>
      intro emitted acc rem hsub hin hnotem
      cases hp : pickReady (idsOf es) emitted rem with
      | none =>
          have hrne : ¬rem.isEmpty = true := by
            intro hre
            rw [List.isEmpty_iff] at hre
            subst hre
            simpa [idsOf] using hin x0 hx0
          refine ⟨onCycle rem, ?_, mem_onCycle_of_cycle hnd hsub hc hcnd hin⟩
          simp only [kahnLoop, hp]
          rw [if_neg hrne]
      | some pr =>
          rcases pr with ⟨t, rest2⟩
          rcases pickReady_some hp with ⟨pre, post, he1, he2, hnr, hrt⟩
          have htid : t.id ∉ cyc := by
            intro htc
            rcases isCycle_rotate hc htc with ⟨rest3, hc3, hperm3⟩
            simp only [isCycle] at hc3
            obtain ⟨z, hzsucc, hzcyc⟩ : ∃ z, z ∈ succsOf es t.id ∧ z ∈ cyc := by
              cases rest3 with
              | nil =>
                  simp only [List.nil_append, chainB, Bool.and_eq_true] at hc3
                  exact ⟨t.id, by simpa using hc3.1, htc⟩
              | cons z t3 =>
                  simp only [List.cons_append, chainB, Bool.and_eq_true] at hc3
                  refine ⟨z, by simpa using hc3.1, ?_⟩
                  exact hperm3.subset (List.mem_cons_of_mem _ (List.mem_cons_self z t3))
            have htes : t ∈ es := by
              apply hsub.subset
              rw [he1]
              exact List.mem_append_right _ (List.mem_cons_self _ _)
            rw [succsOf_mem_iff hnd htes] at hzsucc
            unfold isReady at hrt
            rw [List.all_eq_true] at hrt
            have h3 := hrt z hzsucc.1
            rw [Bool.or_eq_true] at h3
            have hcont : (idsOf es).contains z = true := by simpa using hzsucc.2
            rcases h3 with h3 | h3
            · rw [hcont] at h3
              simp at h3
            · exact hnotem z hzcyc (by simpa using h3)
          have hsub2 : rest2.Sublist es := by
            rw [he2]
            have hstep : (pre ++ post).Sublist (pre ++ t :: post) :=
              (List.Sublist.refl pre).append (List.sublist_cons_self t post)
            rw [← he1] at hstep
            exact hstep.trans hsub
          have hin2 : ∀ x ∈ cyc, x ∈ idsOf rest2 := by
            intro x hx
            have hxne : x ≠ t.id := fun hc2 => htid (hc2 ▸ hx)
            have hxrem := hin x hx
            rw [he1] at hxrem
            rw [he2]
            unfold idsOf at hxrem ⊢
            rw [List.map_append] at hxrem ⊢
            rw [List.map_cons] at hxrem
            rcases List.mem_append.mp hxrem with h2 | h2
            · exact List.mem_append_left _ h2
            · rcases List.mem_cons.mp h2 with h3 | h3
              · exact absurd h3 hxne
              · exact List.mem_append_right _ h3
          have hnotem2 : ∀ x ∈ cyc, x ∉ t.id :: emitted := by
            intro x hx h2
            rcases List.mem_cons.mp h2 with h3 | h3
            · exact htid (h3 ▸ hx)
            · exact hnotem x hx h3
          rcases ih (t.id :: emitted) (acc ++ [t]) rest2 hsub2 hin2 hnotem2 with
            ⟨names, heq, hmem⟩
          refine ⟨names, ?_, hmem⟩
          simp only [kahnLoop, hp]
          exact heq

theorem enabledOf_sublist {stages : List StageDescriptor}
    {cfg : ResolvedConfiguration} {es : List StageDescriptor}
    (h : enabledOf stages cfg = .ok es) : es.Sublist stages := by
  unfold enabledOf at h
  cases hc : prereqClosure stages stages.length (idsOf (stages.filter (stageEnabled cfg))) with
  | error e =>
      simp only [hc] at h
      exact Except.noConfusion h
  | ok ids =>
      simp only [hc] at h
      injection h with h2
      rw [← h2]
      exact List.filter_sublist _

/-- Claim C6: when the enabled stages' prerequisite relation contains a
cycle, stage selection fails with CyclicStageDependency, and the error
names every stage of the cycle. -/
theorem claim6_cycle_detected {stages : List StageDescriptor}
    {cfg : ResolvedConfiguration} {es : List StageDescriptor} {cyc : List String}
    (hnds : (idsOf stages).Nodup)
    (hen : enabledOf stages cfg = .ok es)
    (hcyc : isCycle es cyc = true) (hcnd : cyc.Nodup)
    (hsub : ∀ x ∈ cyc, x ∈ idsOf es) :
    ∃ names, selectStages stages cfg = .error (.CyclicStageDependency names) ∧
      ∀ x ∈ cyc, x ∈ names := by
  have hnd : (idsOf es).Nodup := by
    unfold idsOf at hnds ⊢
    exact ((enabledOf_sublist hen).map (fun s => s.id)).nodup hnds
  rcases kahnLoop_cycle_stuck hnd hcyc hcnd es.length [] [] es
      (List.Sublist.refl es) hsub (fun x _ => List.not_mem_nil x) with
    ⟨names, heq, hmem⟩
  refine ⟨names, ?_, hmem⟩
  unfold selectStages
  simp only [hen]
  exact heq

/-- Concrete instantiation of claim C6: two stages that each require the
other make selection fail with an error naming both. -/
theorem claim6_witness :
    ∃ names, selectStages stagesCyc cfgCyc = .error (.CyclicStageDependency names) ∧
      "a" ∈ names ∧ "b" ∈ names := by
  rcases @claim6_cycle_detected stagesCyc cfgCyc stagesCyc ["a", "b"]
      (by decide) (by decide) (by decide) (by decide) (by decide) with
    ⟨names, h1, h2⟩
  exact ⟨names, h1, h2 "a" (by decide), h2 "b" (by decide)⟩

theorem kahnLoop_trace {ids : List String} :
    ∀ (fuel : Nat) (emitted : List String) (acc rem out : List StageDescriptor),
      kahnLoop ids fuel emitted acc rem = .ok out →
      ∃ tail, out = acc ++ tail ∧ topoCheck ids emitted tail = true := by
  intro fuel
  induction fuel with
  | zero =>
      intro emitted acc rem out h
      simp only [kahnLoop] at h
      by_cases hre : rem.isEmpty = true
      · rw [if_pos hre] at h
        injection h with h2
        exact ⟨[], by rw [← h2]; simp, rfl⟩
      · rw [if_neg hre] at h
        exact Except.noConfusion h
  | succ n ih =>
      intro emitted acc rem out h
      simp only [kahnLoop] at h
      cases hp : pickReady ids emitted rem with
      | none =>
          simp only [hp] at h
          by_cases hre : rem.isEmpty = true
          · rw [if_pos hre] at h
            injection h with h2
            exact ⟨[], by rw [← h2]; simp, rfl⟩
          · rw [if_neg hre] at h
            exact Except.noConfusion h
      | some pr =>
          rcases pr with ⟨t, rest2⟩
          simp only [hp] at h
          rcases ih (t.id :: emitted) (acc ++ [t]) rest2 out h with ⟨tail, he, htc⟩
          refine ⟨t :: tail, by rw [he]; simp, ?_⟩
          simp only [topoCheck, Bool.and_eq_true]
          rcases pickReady_some hp with ⟨pre, post, _, _, _, hrt⟩
          exact ⟨hrt, htc⟩

theorem kahnLoop_perm {ids : List String} :
    ∀ (fuel : Nat) (emitted : List String) (acc rem out : List StageDescriptor),
      kahnLoop ids fuel emitted acc rem = .ok out →
      out.Perm (acc ++ rem) := by
  intro fuel
  induction fuel with
  | zero =>
      intro emitted acc rem out h
      simp only [kahnLoop] at h
      by_cases hre : rem.isEmpty = true
      · rw [if_pos hre] at h
        injection h with h2
        rw [List.isEmpty_iff] at hre
        subst hre
        rw [← h2]
        simp
      · rw [if_neg hre] at h
        exact Except.noConfusion h
  | succ n ih =>
      intro emitted acc rem out h
      simp only [kahnLoop] at h
      cases hp : pickReady ids emitted rem with
      | none =>
          simp only [hp] at h
          by_cases hre : rem.isEmpty = true
          · rw [if_pos hre] at h
            injection h with h2
            rw [List.isEmpty_iff] at hre
            subst hre
            rw [← h2]
            simp
          · rw [if_neg hre] at h
            exact Except.noConfusion h
      | some pr =>
          rcases pr with ⟨t, rest2⟩
          simp only [hp] at h
          rcases pickReady_some hp with ⟨pre, post, he1, he2, _, _⟩
          have hih := ih (t.id :: emitted) (acc ++ [t]) rest2 out h
          rw [he2] at hih
          rw [he1]
          have hstep : ((acc ++ [t]) ++ (pre ++ post)).Perm (acc ++ (pre ++ t :: post)) := by
            rw [List.append_assoc]
            apply List.Perm.append_left acc
            show ([t] ++ (pre ++ post)).Perm (pre ++ t :: post)
            rw [List.singleton_append]
            exact List.perm_middle.symm
          exact hih.trans hstep

theorem topoCheck_spec {ids : List String} :
    ∀ (l : List StageDescriptor) (done : List String),
      topoCheck ids done l = true →
      ∀ l1 s l2, l = l1 ++ s :: l2 → ∀ p ∈ s.prereqs, p ∈ ids →
        p ∈ done ∨ p ∈ idsOf l1 := by
  intro l
  induction l with
  | nil =>
      intro done _ l1 s l2 he
      exact absurd he (by cases l1 <;> simp)
  | cons s0 rest ih =>
      intro done htc l1 s l2 he p hp hpids
      simp only [topoCheck, Bool.and_eq_true] at htc
      cases l1 with
      | nil =>
          rw [List.nil_append] at he
          injection he with h1 h2
          subst h1
          left
          have hrdy := htc.1
          unfold isReady at hrdy
          rw [List.all_eq_true] at hrdy
          have h3 := hrdy p hp
          rw [Bool.or_eq_true] at h3
          rcases h3 with h3 | h3
          · have hcont : ids.contains p = true := by simpa using hpids
            rw [hcont] at h3
            simp at h3
          · simpa using h3
      | cons a l1b =>
          rw [List.cons_append] at he
          injection he with h1 h2
          subst h1
          rcases ih (s0.id :: done) htc.2 l1b s l2 h2 p hp hpids with h3 | h3
          · rcases List.mem_cons.mp h3 with h4 | h4
            · right
              rw [h4]
              unfold idsOf
              rw [List.map_cons]
              exact List.mem_cons_self _ _
            · exact Or.inl h4
          · right
            unfold idsOf at h3 ⊢
            rw [List.map_cons]
            exact List.mem_cons_of_mem _ h3

theorem pair_sublist_cons {α : Type} {x y t : α} {post : List α}
    (h : [x, y].Sublist (t :: post)) :
    [x, y].Sublist post ∨ (x = t ∧ [y].Sublist post) := by
  cases h with
  | cons _ h2 => exact Or.inl h2
  | cons₂ _ h2 => exact Or.inr ⟨rfl, h2⟩

theorem kahnLoop_stable {ids : List String} {x y : StageDescriptor}
    (hxr : isReady ids [] x = true) :
    ∀ (fuel : Nat) (emitted : List String) (acc rem out : List StageDescriptor),
      kahnLoop ids fuel emitted acc rem = .ok out →
      ([x, y].Sublist rem ∨ (x ∈ acc ∧ y ∈ rem) ∨ [x, y].Sublist acc) →
      [x, y].Sublist out := by
  intro fuel
  induction fuel with
  | zero =>
      intro emitted acc rem out h hinv
      simp only [kahnLoop] at h
      by_cases hre : rem.isEmpty = true
      · rw [if_pos hre] at h
        injection h with h2
        rw [List.isEmpty_iff] at hre
        subst hre
        rw [← h2]
        rcases hinv with h3 | h3 | h3
        · exact absurd h3 (by simp)
        · exact absurd h3.2 (List.not_mem_nil y)
        · exact h3
      · rw [if_neg hre] at h
        exact Except.noConfusion h
  | succ n ih =>
      intro emitted acc rem out h hinv
      simp only [kahnLoop] at h
      cases hp : pickReady ids emitted rem with
      | none =>
          simp only [hp] at h
          by_cases hre : rem.isEmpty = true
          · rw [if_pos hre] at h
            injection h with h2
            rw [List.isEmpty_iff] at hre
            subst hre
            rw [← h2]
            rcases hinv with h3 | h3 | h3
            · exact absurd h3 (by simp)
            · exact absurd h3.2 (List.not_mem_nil y)
            · exact h3
          · rw [if_neg hre] at h
            exact Except.noConfusion h
      | some pr =>
          rcases pr with ⟨t, rest2⟩
          simp only [hp] at h
          rcases pickReady_some hp with ⟨pre, post, he1, he2, hnr, hrt⟩
          have hnp : x ∉ pre := by
            intro hxp
            have h4 := hnr x hxp
            rw [isReady_mono hxr] at h4
            cases h4
          apply ih (t.id :: emitted) (acc ++ [t]) rest2 out h
          rcases hinv with h3 | h3 | h3
          · rw [he1] at h3
            rcases List.sublist_append_iff.mp h3 with ⟨l1, l2, hxy, hl1, hl2⟩
            cases l1 with
            | nil =>
                rw [List.nil_append] at hxy
                subst hxy
                rcases pair_sublist_cons hl2 with h4 | h4
                · left
                  rw [he2]
                  exact h4.trans (List.sublist_append_right pre post)
                · rcases h4 with ⟨hxt, hy⟩
                  right
                  left
                  constructor
                  · rw [hxt]
                    exact List.mem_append_right _ (List.mem_cons_self _ _)
                  · rw [he2]
                    have hym : y ∈ post := List.mem_of_cons_sublist hy
                    exact List.mem_append_right _ hym
            | cons a l1b =>
                rw [List.cons_append] at hxy
                injection hxy with h4 h5
                subst h4
                exact absurd (List.mem_of_cons_sublist hl1) hnp
          · by_cases hyt : y = t
            · right
              right
              subst hyt
              have hx1 : [x].Sublist acc := List.singleton_sublist.mpr h3.1
              have := hx1.append (List.Sublist.refl [y])
              simpa using this
            · right
              left
              refine ⟨List.mem_append_left _ h3.1, ?_⟩
              have hyrem := h3.2
              rw [he1] at hyrem
              rw [he2]
              rcases List.mem_append.mp hyrem with h4 | h4
              · exact List.mem_append_left _ h4
              · rcases List.mem_cons.mp h4 with h5 | h5
                · exact absurd h5 hyt
                · exact List.mem_append_right _ h5
          · right
            right
            exact h3.trans (List.sublist_append_left _ _)

theorem nodup_names_inj {cfg : ResolvedConfiguration}
    (hnd : (cfg.map (fun ov => ov.name)).Nodup) :
    ∀ a ∈ cfg, ∀ b ∈ cfg, a.name = b.name → a = b := by
  induction cfg with
  | nil => intro a ha; cases ha
  | cons ov rest ih =>
      simp only [List.map_cons, List.nodup_cons] at hnd
      intro a ha b hb hab
      rcases List.mem_cons.mp ha with h1 | h1 <;> rcases List.mem_cons.mp hb with h2 | h2
      · rw [h1, h2]
      · subst h1
        exfalso
        apply hnd.1
        rw [hab]
        exact List.mem_map_of_mem (fun o => o.name) h2
      · subst h2
        exfalso
        apply hnd.1
        rw [← hab]
        exact List.mem_map_of_mem (fun o => o.name) h1
      · exact ih hnd.2 a h1 b h2 hab

theorem cfgLookup_perm {cfg cfg2 : ResolvedConfiguration}
    (hperm : cfg.Perm cfg2)
    (hnd : (cfg.map (fun ov => ov.name)).Nodup) (n : String) :
    cfgLookup cfg n = cfgLookup cfg2 n := by
  unfold cfgLookup
  cases hf : cfg.find? (fun ov => ov.name == n) with
  | none =>
      have hnone : ∀ ov ∈ cfg2, ¬(ov.name == n) = true := by
        intro ov hov
        exact List.find?_eq_none.mp hf ov (hperm.mem_iff.mpr hov)
      rw [List.find?_eq_none.mpr hnone]
  | some ov =>
      have hov : ov ∈ cfg := List.mem_of_find?_eq_some hf
      have hpred := List.find?_some hf
      have hsome : ∃ ov2, cfg2.find? (fun ov => ov.name == n) = some ov2 := by
        rw [← Option.isSome_iff_exists]
        exact List.find?_isSome.mpr ⟨ov, hperm.mem_iff.mp hov, hpred⟩
      rcases hsome with ⟨ov2, hf2⟩
      have hov2 : ov2 ∈ cfg := hperm.mem_iff.mpr (List.mem_of_find?_eq_some hf2)
      have hpred2 := List.find?_some hf2
      have heq : ov = ov2 := by
        apply nodup_names_inj hnd ov hov ov2 hov2
        have e1 : ov.name = n := by simpa using hpred
        have e2 : ov2.name = n := by simpa using hpred2
        rw [e1, e2]
      rw [hf2, heq]

theorem selectStages_ext {stages : List StageDescriptor}
    {cfg cfg2 : ResolvedConfiguration}
    (h : ∀ n, cfgLookup cfg n = cfgLookup cfg2 n) :
    selectStages stages cfg = selectStages stages cfg2 := by
  have hfe : stages.filter (stageEnabled cfg) = stages.filter (stageEnabled cfg2) := by
    apply List.filter_congr
    intro s _
    unfold stageEnabled
    rw [h s.flag]
  unfold selectStages enabledOf
  rw [hfe]

/-- Claim C5 (amended): on success, selectStages returns exactly the
enabled stages in a topological order of the prerequisite relation; an
enabled stage that is ready from the start is never overtaken by a
later-declared stage; and the order is independent of the iteration order
of the resolved configuration.  Two enabled stages without mutual
dependency need not appear in declaration order when one of them is
blocked by a prerequisite. -/
theorem claim5_topological_order {stages : List StageDescriptor}
    {cfg : ResolvedConfiguration} {es out : List StageDescriptor}
    (hen : enabledOf stages cfg = .ok es)
    (hsel : selectStages stages cfg = .ok out) :
    out.Perm es ∧
      (∀ l1 s l2, out = l1 ++ s :: l2 → ∀ p ∈ s.prereqs, p ∈ idsOf es →
        p ∈ idsOf l1) ∧
      (∀ x y, [x, y].Sublist es → isReady (idsOf es) [] x = true →
        [x, y].Sublist out) ∧
      (∀ cfg2, cfg.Perm cfg2 → (cfg.map (fun ov => ov.name)).Nodup →
        selectStages stages cfg2 = .ok out) := by
  unfold selectStages at hsel
  simp only [hen] at hsel
  refine ⟨?_, ?_, ?_, ?_⟩
  · have := kahnLoop_perm es.length [] [] es out hsel
    simpa using this
  · intro l1 s l2 he p hp hpids
    rcases kahnLoop_trace es.length [] [] es out hsel with ⟨tail, hout, htc⟩
    rw [List.nil_append] at hout
    subst hout
    rcases topoCheck_spec out [] htc l1 s l2 he p hp (by simpa [idsOf] using hpids)
      with h3 | h3
    · cases h3
    · exact h3
  · intro x y hxy hready
    exact kahnLoop_stable hready es.length [] [] es out hsel (Or.inl hxy)
  · intro cfg2 hperm hnd
    rw [← selectStages_ext (fun n => cfgLookup_perm hperm hnd n)]
    unfold selectStages
    simp only [hen]
    exact hsel

/-- Claim C5 as stated is false: stages w and u are both enabled and have
no dependency on each other in either direction, w is declared before u,
yet the returned order puts u before w because w waits for v. -/
theorem claim5_counterexample :
    selectStages stagesOrd cfgOrd = .ok [stageU, stageV, stageW] ∧
      depB stagesOrd "w" "u" = false ∧ depB stagesOrd "u" "w" = false ∧
      (idsOf stagesOrd).indexOf "w" < (idsOf stagesOrd).indexOf "u" ∧
      (idsOf [stageU, stageV, stageW]).indexOf "u" <
        (idsOf [stageU, stageV, stageW]).indexOf "w" := by
  refine ⟨by decide, by decide, by decide, by decide, by decide⟩

/-- Concrete instantiation of the amended claim C5 at the ordering
fixture. -/
theorem claim5_witness :
    ([stageU, stageV, stageW] : List StageDescriptor).Perm stagesOrd ∧
      (∀ l1 s l2, [stageU, stageV, stageW] = l1 ++ s :: l2 →
        ∀ p ∈ s.prereqs, p ∈ idsOf stagesOrd → p ∈ idsOf l1) ∧
      (∀ x y, [x, y].Sublist stagesOrd → isReady (idsOf stagesOrd) [] x = true →
        [x, y].Sublist [stageU, stageV, stageW]) ∧
      (∀ cfg2, cfgOrd.Perm cfg2 → (cfgOrd.map (fun ov => ov.name)).Nodup →
        selectStages stagesOrd cfg2 = .ok [stageU, stageV, stageW]) :=
  @claim5_topological_order stagesOrd cfgOrd stagesOrd [stageU, stageV, stageW]
    (by decide) (by decide)

end VW
